import Mathlib

/-!
Shallow embedding of the poker-rust game engine.

Sources embedded here:
* `src/src/domain/deck.rs` — the 52-bit deck with the SWAR popcount-guided
  bit-select (`pos_of_leading_1_bit`) and `Deck::draw`.  The backend room
  (`src/backend/types/src/room.rs`) imports `crate::deck::Deck`, whose file is
  not present under `src/`; the spec (§4.1) describes a single Deck component
  and `src/src/domain/deck.rs` is its source, so the same embedding serves both.
* `src/backend/types/src/room.rs` — the room state machine (`Room`,
  `Player`, `Pot`, `Stage`, `Position`, `ProceedType` and all public and
  private operations).
* `src/backend/types/src/domain.rs` — `Action`, `ServiceRequiredAction`.

Modelling conventions:
* `Uuid` becomes `Nat`; `Sid` is dropped (never read by the room logic).
* `u32`/`u64` become `Nat`.  All bit operations of the deck are masked
  exactly as in the source; the arithmetic in `pos_of_leading_1_bit` never
  exceeds `2 ^ 64`, so plain `Nat` arithmetic coincides with `u64`
  arithmetic there.  `u32` subtractions in the room occur only where the
  source guarantees no underflow (`ensure!` guards), matching Nat
  truncated subtraction on those inputs.
* Rust `Result` becomes `Except RoomError`; mutation of `&mut self`
  becomes explicit state passing: an operation returns its result
  together with the room it leaves behind (Rust's `bail!` keeps all
  mutations already performed, and so do these definitions).
* Rust panics (`unreachable!`, division by zero, `gen_range` on an empty
  range) are modelled as dedicated `RoomError` values prefixed `panic`.
* Randomness (`rand::thread_rng().gen_range(1..=ones)`) is modelled by an
  oracle stream `g : Nat → Nat` with a cursor `k`; each call consumes one
  value and yields `1 + g k % ones ∈ [1, ones]`, covering every possible
  sequence of in-range random choices.
-/

deriving instance DecidableEq for Except

namespace Poker

/-- Error type covering `src/backend/types/src/error.rs`, the `eyre` string
errors of `room.rs`, and the Rust panics reachable in the embedded code. -/
inductive RoomError where
  | emptyDeck
  | invalidPosition (r : Nat)
  | roomIsFull
  | notPlayersTurn
  | mustCallOrRaise
  | invalidRaiseAmount
  | notEnoughChips
  | playerNotFound
  | dealerNotFound
  | bigBlindNotFound
  | noPlayers
  | noPlayersToAct
  | noPots
  | remainderWinnerNotFound
  | noPlayersFound
  | invalidStageToDeal
  | invalidCommunityCards
  | panicEmptyRange
  | panicUnreachable
  | panicDivZero
  deriving DecidableEq, Repr

/-! ## Deck (`src/src/domain/deck.rs`) -/

inductive Rank where
  | two | three | four | five | six | seven | eight | nine | ten
  | jack | queen | king | ace
  deriving DecidableEq, Repr

inductive Suit where
  | spades | hearts | diamonds | clubs
  deriving DecidableEq, Repr

structure Card where
  rank : Rank
  suit : Suit
  deriving DecidableEq, Repr

/-- Bounded-fuel binary popcount; with fuel 64 it equals `u64::count_ones`
on every input below `2 ^ 64` (the recursion halves the argument, so 64
steps always reach 0 there). -/
def popcountAux : Nat → Nat → Nat
  | 0, _ => 0
  | fuel + 1, n => if n = 0 then 0 else n % 2 + popcountAux fuel (n / 2)

/-- `u64::count_ones` (all deck words are below `2 ^ 64`). -/
def popcount (n : Nat) : Nat := popcountAux 64 n

def P : Nat := 0x5555555555555555
def Q : Nat := 0x3333333333333333
def R : Nat := 0x0f0f0f0f0f0f0f0f
def S : Nat := 0x00ff00ff00ff00ff

def MASK_1 : Nat := 0xff
def MASK_2 : Nat := 0xf
def MASK_3 : Nat := 0x7
def MASK_4 : Nat := 0x3
def MASK_5 : Nat := 0x1

/-- `pos_of_leading_1_bit(r, v)`: position (1-indexed from the least
significant end) of the `r`-th leading 1 bit of `v`; SWAR rank-select
exactly as in `deck.rs` lines 75–123.  The Rust `r > t` branches appear as
`t < r`, and the mutable `r`, `s`, `t` as shadowed `let`s. -/
def pos_of_leading_1_bit (r0 v : Nat) : Except RoomError Nat :=
  if v = 0 then .error .emptyDeck
  else if popcount v < r0 then .error (.invalidPosition r0)
  else
    let a := (v &&& P) + ((v >>> 1) &&& P)
    let b := (a &&& Q) + ((a >>> 2) &&& Q)
    let c := (b &&& R) + ((b >>> 4) &&& R)
    let d := (c &&& S) + ((c >>> 8) &&& S)
    let t := ((d >>> 32) + (d >>> 48)) &&& (2 ^ 16 - 1)
    let s := 64
    let sr := if t < r0 then (s - 32, r0 - t) else (s, r0)
    let t := (d >>> (sr.1 - 16)) &&& MASK_1
    let sr := if t < sr.2 then (sr.1 - 16, sr.2 - t) else sr
    let t := (c >>> (sr.1 - 8)) &&& MASK_2
    let sr := if t < sr.2 then (sr.1 - 8, sr.2 - t) else sr
    let t := (b >>> (sr.1 - 4)) &&& MASK_3
    let sr := if t < sr.2 then (sr.1 - 4, sr.2 - t) else sr
    let t := (a >>> (sr.1 - 2)) &&& MASK_4
    let sr := if t < sr.2 then (sr.1 - 2, sr.2 - t) else sr
    let t := (v >>> (sr.1 - 1)) &&& MASK_5
    let s := if t < sr.2 then sr.1 - 1 else sr.1
    .ok s

def i_to_rank (i : Nat) : Rank :=
  match i % 13 with
  | 0 => .two
  | 1 => .three
  | 2 => .four
  | 3 => .five
  | 4 => .six
  | 5 => .seven
  | 6 => .eight
  | 7 => .nine
  | 8 => .ten
  | 9 => .jack
  | 10 => .queen
  | 11 => .king
  | 12 => .ace
  | _ => .two   -- unreachable: i % 13 < 13

def i_to_suit (i : Nat) : Suit :=
  match i / 13 with
  | 0 => .spades
  | 1 => .hearts
  | 2 => .diamonds
  | 3 => .clubs
  | _ => .clubs  -- unreachable for draw positions (< 52)

/-- `pub struct Deck(u64)` -/
structure Deck where
  word : Nat
  deriving DecidableEq, Repr

def FULL_DECK_INT : Nat := 0x000fffffffffffff

def Deck.new : Deck := ⟨FULL_DECK_INT⟩

/-- `Deck::draw`.  `gen_range(1..=ones)` panics when `ones = 0` (empty
range) — modelled by `panicEmptyRange`; otherwise it is the oracle value
`1 + g k % ones ∈ [1, ones]` and the cursor advances.
`self.0 &= !(1 << position)` on `u64` is `word &&& (2 ^ 64 - 1 - 2 ^ position)`. -/
def Deck.draw (g : Nat → Nat) (k : Nat) (d : Deck) :
    Except RoomError Card × Deck × Nat :=
  let ones := popcount d.word
  if ones = 0 then (.error .panicEmptyRange, d, k)
  else
    let n := 1 + g k % ones
    match pos_of_leading_1_bit n d.word with
    | .error e => (.error e, d, k + 1)
    | .ok pos =>
      let position := pos - 1
      (.ok ⟨i_to_rank position, i_to_suit position⟩,
       ⟨d.word &&& (2 ^ 64 - 1 - 2 ^ position)⟩, k + 1)

/-! ## Room data model (`src/backend/types/src/room.rs`, `domain.rs`) -/

/-- `Action` from `src/backend/types/src/domain.rs`. -/
inductive Action where
  | fold | check | call
  | raise (amount : Nat)
  | allIn
  deriving DecidableEq, Repr

/-- `ServiceRequiredAction` from `src/backend/types/src/domain.rs`. -/
inductive ServiceRequiredAction where
  | noAction | findWinners | playerReceiveCards
  deriving DecidableEq, Repr

inductive Stage where
  | notEnoughPlayers | preFlop | flop | turn | river
  | showdown (deal : Bool)
  deriving DecidableEq, Repr

def Stage.is_showdown : Stage → Bool
  | .showdown _ => true
  | _ => false

inductive ProceedType where
  | noAction | normal | showdownWithoutDealing | showdownWithDealing
  deriving DecidableEq, Repr

def ProceedType.can_proceed : ProceedType → Bool
  | .normal | .showdownWithDealing | .showdownWithoutDealing => true
  | .noAction => false

/-- `Position`, declaration order gives the derived `Ord`:
`Normal < BigBlind < SmallBlind < DealerAndSmallBlind < Dealer`. -/
inductive Position where
  | normal | bigBlind | smallBlind | dealerAndSmallBlind | dealer
  deriving DecidableEq, Repr

/-- Rank of a `Position` in the derived Rust `Ord`. -/
def Position.idx : Position → Nat
  | .normal => 0
  | .bigBlind => 1
  | .smallBlind => 2
  | .dealerAndSmallBlind => 3
  | .dealer => 4

def Position.is_dealer : Position → Bool
  | .dealer | .dealerAndSmallBlind => true
  | _ => false

/-- `Player` (the socket id `sid` is never read by the room logic and is
omitted; `Hand([Card; 2])` becomes a pair). -/
structure Player where
  id : Nat
  name : String
  hand : Option (Card × Card)
  chips : Nat
  bet : Nat
  has_folded : Bool
  position : Position
  has_taken_turn : Bool
  is_connected : Bool
  last_action : Option Action
  deriving DecidableEq, Repr

/-- `Pot`; the `HashSet<Uuid>` of eligible players becomes a `Finset Nat`. -/
structure Pot where
  amount : Nat
  players : Finset Nat
  deriving DecidableEq

structure Winnings where
  player : Nat
  amount : Nat
  deriving DecidableEq, Repr

structure Room where
  id : Nat
  players : List Player
  deck : Deck
  community_cards : List Card
  stage : Stage
  pots : List Pot
  player_joining_next_round : List Player
  player_in_turn : Option Nat
  deriving DecidableEq

/-- `Player::bet_amount`: `ensure!(amount <= chips)`, then move `amount`
from chips to bet (no mutation on failure). -/
def Player.bet_amount (p : Player) (amount : Nat) : Except RoomError Player :=
  if amount ≤ p.chips then
    .ok { p with bet := p.bet + amount, chips := p.chips - amount }
  else
    .error .notEnoughChips

def MAX_NUM_OF_PLAYERS : Nat := 5

def Room.new (id : Nat) : Room :=
  { id := id
    players := []
    deck := Deck.new
    community_cards := []
    stage := .notEnoughPlayers
    pots := []
    player_joining_next_round := []
    player_in_turn := none }

/-- `Room::max_bet`: `players.iter().map(|p| p.bet).max().unwrap_or_default()`. -/
def Room.max_bet (r : Room) : Nat :=
  (r.players.map (·.bet)).foldl Nat.max 0

/-- Replace the first element satisfying `q` (the `iter_mut().find(..)`
mutation pattern). -/
def updateFirst (q : α → Bool) (f : α → α) : List α → List α
  | [] => []
  | x :: xs => if q x then f x :: xs else x :: updateFirst q f xs

/-- Update the element at index `i` (`get_mut` pattern). -/
def updateIdx : Nat → (α → α) → List α → List α
  | _, _, [] => []
  | 0, f, x :: xs => f x :: xs
  | i + 1, f, x :: xs => x :: updateIdx i f xs

/-- `Room::player_count`: connected, chip-bearing players on the table
plus waiting list. -/
def Room.player_count (r : Room) : Nat :=
  ((r.players ++ r.player_joining_next_round).filter
    (fun p => p.is_connected && decide (0 < p.chips))).length

def Room.is_joinable (r : Room) : Bool :=
  r.player_count < MAX_NUM_OF_PLAYERS

/-- `Room::seat_players`: drop disconnected/broke players from both lists,
then append the waiting list to the seated list. -/
def Room.seat_players (r : Room) : Room :=
  { r with
    players :=
      r.players.filter (fun p => p.is_connected && decide (0 < p.chips)) ++
      r.player_joining_next_round.filter (fun p => p.is_connected && decide (0 < p.chips))
    player_joining_next_round := [] }

/-- `Room::reset_table`. -/
def Room.reset_table (r : Room) : Room :=
  let r := r.seat_players
  { r with
    pots := []
    community_cards := []
    deck := Deck.new
    player_in_turn := none }

/-- The marking applied by `Room::leave_player` to every player whose id
matches: set `is_connected := false` and `has_folded := true`. -/
def leaveMark (player_id : Nat) (p : Player) : Player :=
  if p.id == player_id then { p with is_connected := false, has_folded := true } else p

/-- `Room::leave_player`: look up the leaver's chips, mark every matching
player (seated or waiting) disconnected and folded, and reset the table to
`NotEnoughPlayers` when no seated player is connected any more.  Returns
the chips together with the room left behind. -/
def Room.leave_player (r : Room) (player_id : Nat) : Nat × Room :=
  let chips :=
    (((r.players ++ r.player_joining_next_round).find? (fun p => p.id == player_id)).map
      (·.chips)).getD 0
  let r1 := { r with
    players := r.players.map (leaveMark player_id)
    player_joining_next_round := r.player_joining_next_round.map (leaveMark player_id) }
  if r1.players.all (fun p => !p.is_connected) then
    (chips, { r1.reset_table with stage := .notEnoughPlayers })
  else
    (chips, r1)

/-- `Room::next_player_after`: first seat clockwise from `curr_player_index`
whose occupant is non-folded with chips. -/
def Room.next_player_after (r : Room) (curr_player_index : Nat) : Except RoomError Nat :=
  let len := r.players.length
  let next_index := (curr_player_index + 1) % len
  match ((List.range len).map (fun j => (next_index + j) % len)).find? (fun index =>
      match r.players.get? index with
      | some p => !p.has_folded && decide (0 < p.chips)
      | none => false) with
  | none => .error .noPlayersToAct
  | some idx =>
    match r.players.get? idx with
    | some p => .ok p.id
    | none => .error .playerNotFound

/-- `Room::player_to_act_first`. -/
def Room.player_to_act_first (r : Room) : Except RoomError Nat :=
  match r.stage with
  | .notEnoughPlayers => .error .panicUnreachable
  | .preFlop =>
    match r.players.findIdx? (fun p => p.position == .bigBlind) with
    | none => .error .bigBlindNotFound
    | some index => r.next_player_after index
  | _ =>
    match r.players.findIdx? (fun p =>
        p.position == .dealer || p.position == .dealerAndSmallBlind) with
    | none => .error .dealerNotFound
    | some index => r.next_player_after index

/-- `Room::readjust_positions` (infallible: the looked-up index is always
`< total`, so the `wrap_err` branch is dead). -/
def Room.readjust_positions (r : Room) (dealer_position : Nat) : Room :=
  let total := r.players.length
  { r with players := (List.range total).foldl (fun ps i =>
      updateIdx ((dealer_position + i) % total) (fun p => { p with position :=
        if 2 < total then
          match i with
          | 0 => .dealer
          | 1 => .smallBlind
          | 2 => .bigBlind
          | _ => .normal
        else
          match i with
          | 0 => .dealerAndSmallBlind
          | _ => .bigBlind  -- i ≥ 2 unreachable here: i < total ≤ 2
        }) ps) r.players }

/-! ## Starting a hand -/

/-- The per-player loop of `Room::start_game`: reset bet and flags, then
draw two hole cards.  On a failed draw, mutations already made persist
(`try_for_each` over `iter_mut`). -/
def dealHandsGo (g : Nat → Nat) :
    List Player → Deck → Nat → Except RoomError Unit × List Player × Deck × Nat
  | [], d, k => (.ok (), [], d, k)
  | p :: rest, d, k =>
    let p0 := { p with bet := 0, has_folded := false, has_taken_turn := false }
    match Deck.draw g k d with
    | (.error e, d1, k1) => (.error e, p0 :: rest, d1, k1)
    | (.ok c1, d1, k1) =>
      match Deck.draw g k1 d1 with
      | (.error e, d2, k2) => (.error e, p0 :: rest, d2, k2)
      | (.ok c2, d2, k2) =>
        match dealHandsGo g rest d2 k2 with
        | (res, rest1, d3, k3) => (res, { p0 with hand := some (c1, c2) } :: rest1, d3, k3)

/-- `players.iter().enumerate().rev().max_by(|a, b| a.1.position.cmp(&b.1.position))`:
Rust `max_by` keeps the later element on ties, and the iterator is
reversed, so this is the smallest seat index among maximal positions. -/
def dealerSeat (players : List Player) : Option Nat :=
  ((players.enum.reverse).foldl (fun acc x =>
      match acc with
      | none => some x
      | some best => if best.2.position.idx ≤ x.2.position.idx then some x else some best)
    none).map (·.1)

/-- `Room::apply_binds` (`try_for_each` over `iter_mut`: earlier blinds
persist when a later `bet_amount` fails). -/
def applyBindsGo : List Player → Except RoomError Unit × List Player
  | [] => (.ok (), [])
  | p :: rest =>
    match (match p.position with
           | .bigBlind => p.bet_amount 2
           | .smallBlind | .dealerAndSmallBlind => p.bet_amount 1
           | _ => .ok p) with
    | .error e => (.error e, p :: rest)
    | .ok p1 =>
      match applyBindsGo rest with
      | (res, rest1) => (res, p1 :: rest1)

/-- `Room::start_game`. -/
def Room.start_game (g : Nat → Nat) (k : Nat) (r : Room) :
    Except RoomError Unit × Room × Nat :=
  let r := r.reset_table
  match dealHandsGo g r.players r.deck k with
  | (.error e, ps, d, k1) => (.error e, { r with players := ps, deck := d }, k1)
  | (.ok _, ps, d, k1) =>
    let r := { r with players := ps, deck := d }
    match dealerSeat r.players with
    | none => (.error .noPlayers, r, k1)
    | some dealer_seat =>
      match r.players.get? dealer_seat with
      | none => (.error .dealerNotFound, r, k1)
      | some dealer =>
        let next_dealer_seat :=
          match dealer.position with
          | .dealer | .dealerAndSmallBlind => (dealer_seat + 1) % r.players.length
          | _ => dealer_seat
        let r := r.readjust_positions next_dealer_seat
        match applyBindsGo r.players with
        | (.error e, ps1) => (.error e, { r with players := ps1 }, k1)
        | (.ok _, ps1) =>
          let r := { r with players := ps1 }
          match r.player_to_act_first with
          | .error e => (.error e, r, k1)
          | .ok pid => (.ok (), { r with player_in_turn := some pid }, k1)

/-- `Room::deal_community_card`: one burn card, then push the dealt
card(s); a failed draw keeps earlier pushes. -/
def Room.deal_community_card (g : Nat → Nat) (k : Nat) (stage : Stage) (r : Room) :
    Except RoomError Unit × Room × Nat :=
  match stage with
  | .flop =>
    match Deck.draw g k r.deck with
    | (.error e, d, k1) => (.error e, { r with deck := d }, k1)
    | (.ok _, d, k1) =>
      match Deck.draw g k1 d with
      | (.error e, d, k2) => (.error e, { r with deck := d }, k2)
      | (.ok c1, d, k2) =>
        let r := { r with deck := d, community_cards := r.community_cards ++ [c1] }
        match Deck.draw g k2 r.deck with
        | (.error e, d, k3) => (.error e, { r with deck := d }, k3)
        | (.ok c2, d, k3) =>
          let r := { r with deck := d, community_cards := r.community_cards ++ [c2] }
          match Deck.draw g k3 r.deck with
          | (.error e, d, k4) => (.error e, { r with deck := d }, k4)
          | (.ok c3, d, k4) =>
            (.ok (), { r with deck := d, community_cards := r.community_cards ++ [c3] }, k4)
  | .turn | .river =>
    match Deck.draw g k r.deck with
    | (.error e, d, k1) => (.error e, { r with deck := d }, k1)
    | (.ok _, d, k1) =>
      match Deck.draw g k1 d with
      | (.error e, d, k2) => (.error e, { r with deck := d }, k2)
      | (.ok c1, d, k2) =>
        (.ok (), { r with deck := d, community_cards := r.community_cards ++ [c1] }, k2)
  | _ => (.error .invalidStageToDeal, r, k)

/-! ## Proceed decision -/

/-- `itertools::all_equal` on a list of bets. -/
def allEqual : List Nat → Bool
  | [] => true
  | x :: xs => xs.all (· == x)

/-- `Room::proceed_type`; `none` models the `unreachable!()` panic when
every seated player has folded. -/
def Room.proceed_type (r : Room) : Option ProceedType :=
  let players_in_play := r.players.filter (fun p => !p.has_folded)
  match players_in_play with
  | [] => none
  | [_] => some .showdownWithoutDealing
  | _ :: _ :: _ =>
    let remaining_players := players_in_play.filter (fun p => decide (0 < p.chips))
    match remaining_players with
    | [] => some .showdownWithDealing
    | [p] => if p.bet = r.max_bet then some .showdownWithDealing else some .noAction
    | other_players =>
      if other_players.all (·.has_taken_turn) && allEqual (other_players.map (·.bet)) then
        some .normal
      else
        some .noAction

/-- `Room::can_proceed_to_next_stage`. -/
def Room.can_proceed_to_next_stage (r : Room) : Option ProceedType :=
  match r.stage with
  | .notEnoughPlayers =>
    if 2 ≤ r.players.length then some .normal else some .noAction
  | .showdown _ => some .normal
  | _ => r.proceed_type

/-! ## Ending a betting stage: side pots -/

/-- Stable insertion (descending by bet) for
`bets.sort_by(|a, b| b.1.cmp(&a.1))`. -/
def insertBetDesc (x : Nat × Nat) : List (Nat × Nat) → List (Nat × Nat)
  | [] => [x]
  | y :: ys => if y.2 < x.2 then x :: y :: ys else y :: insertBetDesc x ys

/-- Stable sort, descending by bet (`sort_by(|a, b| b.1.cmp(&a.1))`). -/
def sortBetDesc (l : List (Nat × Nat)) : List (Nat × Nat) :=
  l.foldr insertBetDesc []

/-- One layer of the `while let Some(smallest_bet) = bets.last()` loop of
`Room::end_stage`: subtract the smallest remaining bet (the last element —
`bets` is sorted descending) from every entry, build the layer's pot, and
keep the entries that still have a positive bet.  The reversed iteration
order of the Rust loop only affects `HashSet` insertion order, which a
`Finset` does not record. -/
def potLayerStep (b : Nat × Nat) (bs : List (Nat × Nat)) : Pot × List (Nat × Nat) :=
  let bets := b :: bs
  let smallest := (bets.getLast (by simp)).2
  ({ amount := bets.foldl (fun acc _ => acc + smallest) 0
     players := bets.foldl (fun s x => insert x.1 s) (∅ : Finset Nat) },
   (bets.map (fun x => (x.1, x.2 - smallest))).filter (fun x => decide (0 < x.2)))

/-- The full layer-peeling loop, with explicit fuel so that the recursion
is structural (and hence kernel-reducible).  Every iteration drops at
least the (zeroed) smallest bet, so fuel = initial length always
suffices; see `potLayersGo_fuel_irrelevant`. -/
def potLayersGo : Nat → List (Nat × Nat) → List Pot
  | 0, _ => []
  | _, [] => []
  | fuel + 1, b :: bs =>
    let step := potLayerStep b bs
    step.1 :: potLayersGo fuel step.2

def potLayers (bets : List (Nat × Nat)) : List Pot := potLayersGo bets.length bets

/-- `Room::end_stage`. -/
def Room.end_stage (r : Room) : Except RoomError Unit × Room :=
  match r.stage with
  | .notEnoughPlayers | .showdown _ => (.ok (), r)
  | _ =>
    let bets := (r.players.filter (fun p => decide (0 < p.bet))).map (fun p => (p.id, p.bet))
    let bets := sortBetDesc bets
    let pots := r.pots ++ potLayers bets
    match pots with
    | [] => (.error .noPots, r)
    | first :: restPots =>
      let new_pots := restPots.foldl (fun acc q =>
        match acc.getLast? with
        | some lastPot =>
          if lastPot.players = q.players then
            acc.dropLast ++ [{ lastPot with amount := lastPot.amount + q.amount }]
          else acc ++ [q]
        | none => acc ++ [q]) [first]
      (.ok (),
       { r with
         pots := new_pots
         players := r.players.map (fun p =>
           { p with has_taken_turn := false, bet := 0, last_action := none }) })

/-! ## Stage transitions -/

/-- `Room::proceed_to_next_stage` (runs `end_stage` first; the
`ProceedType::NoAction` arm is `unreachable!()`). -/
def Room.proceed_to_next_stage (r : Room) (proceed_type : ProceedType) :
    Except RoomError Unit × Room :=
  match r.end_stage with
  | (.error e, r1) => (.error e, r1)
  | (.ok _, r1) =>
    match proceed_type with
    | .noAction => (.error .panicUnreachable, r1)
    | .showdownWithoutDealing => (.ok (), { r1 with stage := .showdown false })
    | .showdownWithDealing => (.ok (), { r1 with stage := .showdown true })
    | .normal =>
      match r1.stage with
      | .showdown _ =>
        let r2 := r1.seat_players
        if 2 ≤ r2.players.length then (.ok (), { r2 with stage := .preFlop })
        else (.ok (), { r2 with stage := .notEnoughPlayers })
      | .notEnoughPlayers =>
        if 2 ≤ r1.players.length then (.ok (), { r1 with stage := .preFlop })
        else (.error .panicUnreachable, r1)
      | .preFlop => (.ok (), { r1 with stage := .flop })
      | .flop => (.ok (), { r1 with stage := .turn })
      | .turn => (.ok (), { r1 with stage := .river })
      | .river => (.ok (), { r1 with stage := .showdown true })

/-- `Room::setup_stage`. -/
def Room.setup_stage (g : Nat → Nat) (k : Nat) (r : Room) :
    Except RoomError ServiceRequiredAction × Room × Nat :=
  match r.stage with
  | .notEnoughPlayers => (.ok .noAction, r.reset_table, k)
  | .preFlop =>
    match r.start_game g k with
    | (.error e, r1, k1) => (.error e, r1, k1)
    | (.ok _, r1, k1) => (.ok .playerReceiveCards, r1, k1)
  | .flop =>
    match r.deal_community_card g k .flop with
    | (.error e, r1, k1) => (.error e, r1, k1)
    | (.ok _, r1, k1) =>
      match r1.player_to_act_first with
      | .error e => (.error e, r1, k1)
      | .ok pid => (.ok .noAction, { r1 with player_in_turn := some pid }, k1)
  | .turn =>
    match r.deal_community_card g k .turn with
    | (.error e, r1, k1) => (.error e, r1, k1)
    | (.ok _, r1, k1) =>
      match r1.player_to_act_first with
      | .error e => (.error e, r1, k1)
      | .ok pid => (.ok .noAction, { r1 with player_in_turn := some pid }, k1)
  | .river =>
    match r.deal_community_card g k .river with
    | (.error e, r1, k1) => (.error e, r1, k1)
    | (.ok _, r1, k1) =>
      match r1.player_to_act_first with
      | .error e => (.error e, r1, k1)
      | .ok pid => (.ok .noAction, { r1 with player_in_turn := some pid }, k1)
  | .showdown true =>
    let dealt : Except RoomError Unit × Room × Nat :=
      match r.community_cards.length with
      | 0 =>
        match r.deal_community_card g k .flop with
        | (.error e, r1, k1) => (.error e, r1, k1)
        | (.ok _, r1, k1) =>
          match r1.deal_community_card g k1 .turn with
          | (.error e, r2, k2) => (.error e, r2, k2)
          | (.ok _, r2, k2) => r2.deal_community_card g k2 .river
      | 3 =>
        match r.deal_community_card g k .turn with
        | (.error e, r1, k1) => (.error e, r1, k1)
        | (.ok _, r1, k1) => r1.deal_community_card g k1 .river
      | 4 => r.deal_community_card g k .river
      | 5 => (.ok (), r, k)
      | _ => (.error .invalidCommunityCards, r, k)
    match dealt with
    | (.error e, r1, k1) => (.error e, r1, k1)
    | (.ok _, r1, k1) => (.ok .findWinners, { r1 with player_in_turn := none }, k1)
  | .showdown false => (.ok .findWinners, { r with player_in_turn := none }, k)

/-- `Room::proceed`. -/
def Room.proceed (g : Nat → Nat) (k : Nat) (r : Room) :
    Except RoomError ServiceRequiredAction × Room × Nat :=
  match r.can_proceed_to_next_stage with
  | none => (.error .panicUnreachable, r, k)
  | some proceed_type =>
    if proceed_type.can_proceed then
      match r.proceed_to_next_stage proceed_type with
      | (.error e, r1) => (.error e, r1, k)
      | (.ok _, r1) => r1.setup_stage g k
    else if r.stage = .notEnoughPlayers then (.ok .noAction, r, k)
    else
      match r.players.findIdx? (fun p => r.player_in_turn == some p.id) with
      | none => (.error .playerNotFound, r, k)
      | some current_player_index =>
        match r.next_player_after current_player_index with
        | .error e => (.error e, r, k)
        | .ok next_player_id =>
          (.ok .noAction, { r with player_in_turn := some next_player_id }, k)

/-! ## Public operations -/

/-- `Room::join_player`. -/
def Room.join_player (g : Nat → Nat) (k : Nat) (r : Room) (player : Player) :
    Except RoomError ServiceRequiredAction × Room × Nat :=
  if !r.is_joinable then (.error .roomIsFull, r, k)
  else
    match r.stage with
    | .notEnoughPlayers => ({ r with players := r.players ++ [player] }).proceed g k
    | _ =>
      (.ok .noAction,
       { r with player_joining_next_round := r.player_joining_next_round ++ [player] }, k)

/-- The `max_bet` local of `Room::take_action`: the maximum bet over
non-folded players only (contrast `Room.max_bet`, which ranges over all
seated players). -/
def Room.non_folded_max_bet (r : Room) : Nat :=
  ((r.players.filter (fun p => !p.has_folded)).map (·.bet)).foldl Nat.max 0

/-- `Room::take_action`.  Note: `last_action` is recorded *before* the
action is validated. -/
def Room.take_action (g : Nat → Nat) (k : Nat) (r : Room) (player_id : Nat)
    (action : Action) : Except RoomError ServiceRequiredAction × Room × Nat :=
  if r.player_in_turn ≠ some player_id then (.error .notPlayersTurn, r, k)
  else
    let max_bet := r.non_folded_max_bet
    match r.players.find? (fun p => p.id == player_id) with
    | none => (.error .playerNotFound, r, k)
    | some player =>
      let player := { player with last_action := some action }
      let acted : Except RoomError Player :=
        match action with
        | .fold => .ok { player with has_folded := true }
        | .check =>
          if player.bet < max_bet then .error .mustCallOrRaise else .ok player
        | .call => player.bet_amount (max_bet - player.bet)
        | .raise amount =>
          if amount + player.bet < max_bet then .error .invalidRaiseAmount
          else player.bet_amount amount
        | .allIn => player.bet_amount player.chips
      match acted with
      | .error e =>
        (.error e,
         { r with players := updateFirst (fun p => p.id == player_id) (fun _ => player) r.players },
         k)
      | .ok player1 =>
        let players1 := updateFirst (fun p => p.id == player_id)
          (fun _ => { player1 with has_taken_turn := true }) r.players
        ({ r with players := players1 }).proceed g k

/-! ## Splitting pots -/

/-- `Room::closest_to_dealer` (on the player list). -/
def closestToDealer (players : List Player) (player_ids : Finset Nat) :
    Except RoomError Nat :=
  match players.findIdx? (fun p =>
      p.position == .dealer || p.position == .dealerAndSmallBlind) with
  | none => .error .dealerNotFound
  | some dealer_index =>
    let len := players.length
    let next_to_dealer := (dealer_index + 1) % len
    match ((List.range len).map (fun j => (next_to_dealer + j) % len)).findSome?
        (fun index =>
          match players.get? index with
          | some p => if p.id ∈ player_ids then some p.id else none
          | none => none) with
    | some p_id => .ok p_id
    | none => .error .noPlayersFound

def Room.closest_to_dealer (r : Room) (player_ids : Finset Nat) : Except RoomError Nat :=
  closestToDealer r.players player_ids

/-- The `for (amount, winner_ids) in winners` loop of `Room::split_pot`.
`amount / winner_ids.len() as u32` panics on an empty winner set (`u32`
division by zero). -/
def splitPotGo (players : List Player) :
    List (Nat × Finset Nat) → Except RoomError (List (List Winnings)) × List Player
  | [] => (.ok [], players)
  | (amount, winner_ids) :: rest =>
    if winner_ids.card = 0 then (.error .panicDivZero, players)
    else
      let earnings := amount / winner_ids.card
      let winnings := (players.filter (fun p => p.id ∈ winner_ids)).map
        (fun p => Winnings.mk p.id earnings)
      let players1 := players.map (fun p =>
        if p.id ∈ winner_ids then { p with chips := p.chips + earnings } else p)
      let remainder := amount % winner_ids.card
      match closestToDealer players1 winner_ids with
      | .error e => (.error e, players1)
      | .ok remainder_winner =>
        match players1.find? (fun p => p.id == remainder_winner) with
        | none => (.error .remainderWinnerNotFound, players1)
        | some _ =>
          let players2 := updateFirst (fun p => p.id == remainder_winner)
            (fun p => { p with chips := p.chips + remainder }) players1
          let winnings2 := updateFirst (fun w => w.player == remainder_winner)
            (fun w => { w with amount := w.amount + remainder }) winnings
          match splitPotGo players2 rest with
          | (.error e, players3) => (.error e, players3)
          | (.ok splits, players3) => (.ok (winnings2 :: splits), players3)

/-- `Room::split_pot`. -/
def Room.split_pot (r : Room) (winners : List (Nat × Finset Nat)) :
    Except RoomError (List (List Winnings)) × Room :=
  match splitPotGo r.players winners with
  | (res, ps) => (res, { r with players := ps })

/-! ## Concrete fixtures for witnesses and counterexamples -/

/-- A fixed random oracle (always selects the first remaining choice). -/
def oracle0 : Nat → Nat := fun _ => 0

def basePlayer : Player :=
  { id := 0, name := "p", hand := none, chips := 0, bet := 0,
    has_folded := false, position := .normal, has_taken_turn := false,
    is_connected := true, last_action := none }

def playerDSB : Player :=
  { basePlayer with id := 1, chips := 99, bet := 1, position := .dealerAndSmallBlind }

def playerBB : Player :=
  { basePlayer with id := 2, chips := 98, bet := 2, position := .bigBlind }

/-- Heads-up PreFlop room right after the blinds: seat 0 is
DealerAndSmallBlind (bet 1) and in turn, seat 1 is BigBlind (bet 2). -/
def headsUpPreFlop : Room :=
  { Room.new 10 with
    stage := .preFlop
    players := [playerDSB, playerBB]
    player_in_turn := some 1 }

/-- A room with only the acting player's `last_action` overwritten: the
state a validation-failing `take_action` leaves behind (C1, amended). -/
def setLastAction (r : Room) (pid : Nat) (q : Player) (a : Action) : Room :=
  let ps := updateFirst (fun p => p.id == pid) (fun _ => { q with last_action := some a }) r.players
  { r with players := ps }

/-- The room `take_action` hands to `proceed` after a successful Check by
the player in turn (found as `q`): the attempted action and the turn flag
are recorded on the actor's seat (C10). -/
def checkedRoom (r : Room) (pid : Nat) (q : Player) : Room :=
  let ps := updateFirst (fun p => p.id == pid)
    (fun _ => { q with last_action := some Action.check, has_taken_turn := true }) r.players
  { r with players := ps }

/-- C10 witness actor: in turn with bet 5 = the non-folded maximum. -/
def c10Actor : Player := { basePlayer with id := 1, chips := 20, bet := 5 }

/-- C10 witness room: the table's single highest bet (10) belongs to the
folded player 3, while both non-folded players have bet 5. -/
def c10Room : Room :=
  { Room.new 12 with
    stage := .flop
    players := [c10Actor,
                { basePlayer with id := 2, chips := 20, bet := 5, position := .dealer,
                                  has_taken_turn := true },
                { basePlayer with id := 3, chips := 20, bet := 10, has_folded := true,
                                  has_taken_turn := true }]
    player_in_turn := some 1 }

/-- A room with a single seated connected player (C9). -/
def soloRoom : Room :=
  { Room.new 9 with players := [{ basePlayer with id := 1, chips := 5 }] }

/-- C6 witness room: three seated players with distinct ids, seat 2 being
the dealer. -/
def c6Room : Room :=
  { Room.new 6 with
    players := [{ basePlayer with id := 1, chips := 10 },
                { basePlayer with id := 2, chips := 10, position := .dealer },
                { basePlayer with id := 3, chips := 10 }] }

/-- C3 counterexample room: one pot of 2 chips awaiting its winner. -/
def c3Room : Room :=
  { Room.new 3 with
    players := [{ basePlayer with id := 1, position := .dealer }]
    pots := [{ amount := 2, players := {1} }] }

/-- The stages during which someone is expected to act (C2). -/
def Stage.is_betting : Stage → Bool
  | .preFlop | .flop | .turn | .river => true
  | _ => false

/-- C2's invariant, amended: `player_in_turn` is `none` exactly outside
the betting stages, and when it names a player that player is seated and
either still an actor (non-folded with chips) or the disconnected remnant
left behind by `leave_player`. -/
def turnInv (r : Room) : Prop :=
  (r.player_in_turn = none ↔ r.stage.is_betting = false) ∧
  (match r.player_in_turn with
   | none => True
   | some pid => ∃ p ∈ r.players, p.id = pid ∧
       ((p.has_folded = false ∧ 0 < p.chips) ∨ p.is_connected = false))

/-- Room states reachable from `Room::new` through the public operations,
taking only the successful (`Ok`) transitions of the fallible ones;
`leave_player` is infallible and always included. -/
inductive Reachable : Room → Prop where
  | new : ∀ i : Nat, Reachable (Room.new i)
  | join : ∀ (r : Room) (g : Nat → Nat) (k : Nat) (p : Player) (e : ServiceRequiredAction),
      Reachable r → (r.join_player g k p).1 = .ok e →
      Reachable (r.join_player g k p).2.1
  | act : ∀ (r : Room) (g : Nat → Nat) (k : Nat) (pid : Nat) (a : Action)
      (e : ServiceRequiredAction),
      Reachable r → (r.take_action g k pid a).1 = .ok e →
      Reachable (r.take_action g k pid a).2.1
  | advance : ∀ (r : Room) (g : Nat → Nat) (k : Nat) (e : ServiceRequiredAction),
      Reachable r → (r.proceed g k).1 = .ok e →
      Reachable (r.proceed g k).2.1
  | leave : ∀ (r : Room) (pid : Nat),
      Reachable r → Reachable (r.leave_player pid).2

/-- C2 trace fixtures: two players join a fresh room, then player 1 — the
player in turn — leaves. -/
def c2p1 : Player := { basePlayer with id := 1, chips := 10 }

def c2p2 : Player := { basePlayer with id := 2, chips := 10 }

def c2Join1 : Except RoomError ServiceRequiredAction × Room × Nat :=
  (Room.new 2).join_player oracle0 0 c2p1

def c2Join2 : Except RoomError ServiceRequiredAction × Room × Nat :=
  c2Join1.2.1.join_player oracle0 c2Join1.2.2 c2p2

def c2Left : Nat × Room := c2Join2.2.1.leave_player 1

/-- The seated/waiting players `leave_player` keeps when it resets the
table: the marked list filtered to connected chip-bearing players. -/
def leaveSurvivors (pid : Nat) (l : List Player) : List Player :=
  (l.map (leaveMark pid)).filter (fun p => p.is_connected && decide (0 < p.chips))

/-- C7, following the claim's wording: the ProceedType for a betting
stage, determined from the seated players — ShowdownWithoutDealing when
exactly one seated player is non-folded; ShowdownWithDealing when at least
two are non-folded and none of them has chips, or when exactly one
non-folded player has chips and its bet equals the maximum bet; Normal
when several non-folded players have chips, all of them have taken their
turn and their bets are all equal; NoAction otherwise. -/
def proceedTypeSpec (r : Room) : ProceedType :=
  let nonFolded := r.players.filter (fun p => !p.has_folded)
  let withChips := nonFolded.filter (fun p => decide (0 < p.chips))
  if nonFolded.length = 1 then .showdownWithoutDealing
  else if withChips.length = 0 then .showdownWithDealing
  else if withChips.length = 1 then
    if withChips.any (fun p => p.bet == r.max_bet) then .showdownWithDealing else .noAction
  else if withChips.all (·.has_taken_turn) && allEqual (withChips.map (·.bet)) then .normal
  else .noAction

/-- C5, following the claim's wording — the layer-peeling loop: take the
smallest remaining bet, build one pot of (smallest × number of players
still in the layer) chips eligible to exactly those players, subtract the
layer from every bet and drop exhausted entries.  Fuel as in
`potLayersGo`. -/
def specPeelGo : Nat → List (Nat × Nat) → List Pot
  | 0, _ => []
  | _, [] => []
  | fuel + 1, b :: bs =>
    let smallest := (bs.map (·.2)).foldl Nat.min b.2
    let pot : Pot :=
      { amount := smallest * (b :: bs).length
        players := ((b :: bs).map (·.1)).toFinset }
    pot :: specPeelGo fuel
      (((b :: bs).map (fun x => (x.1, x.2 - smallest))).filter (fun x => decide (0 < x.2)))

/-- C5 — merge consecutive pots with identical player sets by summing
their amounts. -/
def specMergeGo (cur : Pot) : List Pot → List Pot
  | [] => [cur]
  | q :: rest =>
    if cur.players = q.players then
      specMergeGo { amount := cur.amount + q.amount, players := cur.players } rest
    else cur :: specMergeGo q rest

def specMerge : List Pot → List Pot
  | [] => []
  | p :: rest => specMergeGo p rest

/-- C5, assembled from the claim's words: take the players with non-zero
bet, sort the bets descending, peel layers into one pot each, merge
consecutive pots in the (pre-existing ++ new) pot list whose player sets
are identical, then zero every bet and clear the turn-taken flag and the
last action. -/
def specEndStage (r : Room) : Room :=
  let bets := sortBetDesc
    ((r.players.filter (fun p => decide (0 < p.bet))).map (fun p => (p.id, p.bet)))
  { r with
    pots := specMerge (r.pots ++ specPeelGo bets.length bets)
    players := r.players.map (fun p =>
      { p with bet := 0, has_taken_turn := false, last_action := none }) }

/-- Players with `g` extra chips credited by id; describes the cumulative
effect of `split_pot` on the seats (C6). -/
def addChips (g : Nat → Nat) (l : List Player) : List Player :=
  l.map (fun p => { p with chips := p.chips + g p.id })

/-- C6, from the claim's words — the payout list of one pot: every seated
winner, in seat order, receives amount / |winners| chips, and the winner
`w` nearest clockwise from the dealer seat additionally receives
amount % |winners|. -/
def potPayoutSpec (base : List Player) (amount : Nat) (ids : Finset Nat) (w : Nat) :
    List Winnings :=
  (base.filter (fun p => p.id ∈ ids)).map (fun p =>
    Winnings.mk p.id (amount / ids.card + if p.id = w then amount % ids.card else 0))

/-- The per-pot payout lists of C6, the remainder winner of each pot being
the one closest to the dealer. -/
def potPayouts (base : List Player) (winners : List (Nat × Finset Nat)) :
    List (List Winnings) :=
  winners.map (fun pw =>
    match closestToDealer base pw.2 with
    | .ok w => potPayoutSpec base pw.1 pw.2 w
    | .error _ => [])

/-- Total amount a list of payout lists credits to player `i`. -/
def wonIn (payouts : List (List Winnings)) (i : Nat) : Nat :=
  ((payouts.flatten.filter (fun x => x.player == i)).map (·.amount)).sum

/-- The conserved quantity of C3: chips and bets on the seats plus the
chips already moved into pots. -/
def chipSum (r : Room) : Nat :=
  (r.players.map (fun p => p.chips + p.bet)).sum + (r.pots.map (·.amount)).sum

/-! # Theorems -/

/-! ## Supporting lemmas -/

theorem length_filter_lt_of_mem (p : α → Bool) {l : List α} {x : α}
    (hx : x ∈ l) (hpx : p x = false) : (l.filter p).length < l.length := by
  induction l with
  | nil => cases hx
  | cons y ys ih =>
    rcases List.mem_cons.mp hx with rfl | hmem
    · simp only [List.filter_cons, hpx, Bool.false_eq_true, if_neg]
      simpa using Nat.lt_succ_of_le (List.length_filter_le p ys)
    · by_cases hy : p y
      · simpa [List.filter_cons, hy] using ih hmem
      · simp only [List.filter_cons, hy]
        exact Nat.lt_succ_of_lt (ih hmem)

theorem potLayersGo_nil (fuel : Nat) : potLayersGo fuel [] = [] := by
  cases fuel <;> rfl

/-- The filtered remainder of a layer step is strictly shorter. -/
theorem potLayerStep_length_lt (b : Nat × Nat) (bs : List (Nat × Nat)) :
    (potLayerStep b bs).2.length < (b :: bs).length := by
  have h := length_filter_lt_of_mem (fun x => decide (0 < x.2))
    (List.mem_map_of_mem (fun x => (x.1, x.2 - ((b :: bs).getLast (by simp)).2))
      (List.getLast_mem (show b :: bs ≠ [] by simp)))
    (by simp)
  simpa [potLayerStep] using h

/-- Any fuel at least the list length computes the same layers. -/
theorem potLayersGo_fuel_irrelevant :
    ∀ (fuel fuel' : Nat) (l : List (Nat × Nat)), l.length ≤ fuel → l.length ≤ fuel' →
      potLayersGo fuel l = potLayersGo fuel' l := by
  intro fuel
  induction fuel using Nat.strong_induction_on with
  | _ fuel ih =>
    intro fuel' l hf hf'
    rcases l with _ | ⟨b, bs⟩
    · rw [potLayersGo_nil, potLayersGo_nil]
    · rcases fuel with _ | f
      · simp at hf
      · rcases fuel' with _ | f'
        · simp at hf'
        · have hlt := potLayerStep_length_lt b bs
          simp only [List.length_cons] at hf hf' hlt
          simp only [potLayersGo]
          rw [ih f (Nat.lt_succ_self f) f' _ (by omega) (by omega)]

/-! ## C8 — joining mid-hand only appends to the waiting list -/

/-- C8: for every room whose stage is not NotEnoughPlayers and that is
joinable, `join_player p` appends `p` to the waiting list only and returns
NoAction; the seated players (hence their hole cards), the community
cards, the pots, the deck, the stage and `player_in_turn` are unchanged,
so the joining player gets no cards and no seat in the hand in progress. -/
theorem C8_join_mid_hand_waits (g : Nat → Nat) (k : Nat) (r : Room) (p : Player)
    (hj : r.is_joinable = true) (hs : r.stage ≠ Stage.notEnoughPlayers) :
    r.join_player g k p =
      (.ok .noAction,
       { r with player_joining_next_round := r.player_joining_next_round ++ [p] }, k) := by
  cases h : r.stage
  case notEnoughPlayers => exact absurd h hs
  all_goals
    unfold Room.join_player
    rw [hj]
    simp [h]

/-- A concrete two-seat Flop-stage room for the C8 witness. -/
def flopRoom : Room :=
  { Room.new 80 with
    stage := .flop
    players := [{ basePlayer with id := 1, chips := 100 },
                { basePlayer with id := 2, chips := 100 }] }

/-- Witness for C8: a concrete two-seat Flop-stage room. -/
theorem C8_join_mid_hand_waits_witness :
    flopRoom.join_player oracle0 0 { basePlayer with id := 3, chips := 50 } =
      (.ok .noAction,
       { flopRoom with player_joining_next_round := [{ basePlayer with id := 3, chips := 50 }] },
       0) :=
  C8_join_mid_hand_waits oracle0 0 _ _ (by decide) (by decide)

/-! ## C4 — drawing from an empty deck -/

/-- C4 (code bug in `Deck::draw`): on a deck word with popcount 0 the
call `rand::thread_rng().gen_range(1..=0)` panics ("cannot sample empty
range") *before* `pos_of_leading_1_bit` can return `EmptyDeck`; the draw
does not produce the `EmptyDeck` error the spec promises.  The panic is
modelled as `panicEmptyRange`. -/
theorem C4_draw_empty_deck_panics (g : Nat → Nat) (k : Nat) :
    Deck.draw g k ⟨0⟩ = (.error .panicEmptyRange, ⟨0⟩, k) ∧
    RoomError.panicEmptyRange ≠ RoomError.emptyDeck :=
  ⟨rfl, by decide⟩

/-! ## C1 — failure atomicity -/

/-- C1 counterexample: in a concrete heads-up PreFlop room, a Check by the
player in turn (bet 1 < big blind 2) fails with "Player must call or
raise", yet the room after the call differs from the room before it (the
acting player's `last_action` is now `some check`). -/
theorem C1_cex_failed_check_mutates :
    (headsUpPreFlop.take_action oracle0 0 1 .check).1 = .error .mustCallOrRaise ∧
    (headsUpPreFlop.take_action oracle0 0 1 .check).2.1 ≠ headsUpPreFlop := by
  decide

/-- C1 (amended): a `take_action` call that fails validation — Check below
the non-folded max bet, Raise below the required amount, or Call/Raise
exceeding the player's chips — leaves every field of the room unchanged
EXCEPT the acting player's `last_action`, which records the attempted
action (it is written before validation); `join_player` failing with
RoomIsFull leaves the room unchanged. -/
theorem C1_amended_err_frame (g : Nat → Nat) (k : Nat) (r : Room) (pid : Nat)
    (q : Player) (ht : r.player_in_turn = some pid)
    (hf : r.players.find? (fun p => p.id == pid) = some q) :
    (q.bet < r.non_folded_max_bet →
      r.take_action g k pid .check = (.error .mustCallOrRaise, setLastAction r pid q .check, k)) ∧
    (∀ amt, amt + q.bet < r.non_folded_max_bet →
      r.take_action g k pid (.raise amt) =
        (.error .invalidRaiseAmount, setLastAction r pid q (.raise amt), k)) ∧
    (∀ amt, r.non_folded_max_bet ≤ amt + q.bet → q.chips < amt →
      r.take_action g k pid (.raise amt) =
        (.error .notEnoughChips, setLastAction r pid q (.raise amt), k)) ∧
    (q.chips < r.non_folded_max_bet - q.bet →
      r.take_action g k pid .call = (.error .notEnoughChips, setLastAction r pid q .call, k)) ∧
    (∀ p, r.is_joinable = false → r.join_player g k p = (.error .roomIsFull, r, k)) := by
  refine ⟨?_, ?_, ?_, ?_, ?_⟩
  · intro hb
    unfold Room.take_action
    simp [ht, hf, hb, setLastAction]
  · intro amt hr
    unfold Room.take_action
    simp [ht, hf, hr, setLastAction]
  · intro amt hr hb
    unfold Room.take_action
    simp [ht, hf, Player.bet_amount, setLastAction, Nat.not_lt.mpr hr, Nat.not_le.mpr hb]
  · intro hb
    unfold Room.take_action
    simp [ht, hf, Player.bet_amount, setLastAction, Nat.not_le.mpr hb]
  · intro p hj
    unfold Room.join_player
    rw [hj]
    simp

/-- Witness for C1 (amended): the concrete failed Check of the
counterexample changes exactly the acting player's `last_action`, and a
join into a full room is rejected unchanged. -/
theorem C1_amended_err_frame_witness :
    headsUpPreFlop.take_action oracle0 0 1 .check =
      (.error .mustCallOrRaise, setLastAction headsUpPreFlop 1 playerDSB .check, 0) :=
  (C1_amended_err_frame oracle0 0 headsUpPreFlop 1 playerDSB (by decide) (by decide)).1
    (by decide)

/-! ## C10 — Check resolves against the non-folded maximum bet -/

/-- C10: `take_action` validates Check against the maximum bet of
non-folded players only (`non_folded_max_bet`), while `max_bet` (used by
`proceed_type`) ranges over all seated players including folded ones.
Hence when the table's single highest bet belongs to a folded player
(`non_folded_max_bet < max_bet`) and the player in turn has bet exactly
the non-folded maximum, the Check passes validation — the action and turn
flag are recorded and the state machine proceeds — even though the
player's bet is below the folded player's bet. -/
theorem C10_check_against_non_folded_max (g : Nat → Nat) (k : Nat) (r : Room)
    (pid : Nat) (q : Player) (ht : r.player_in_turn = some pid)
    (hf : r.players.find? (fun p => p.id == pid) = some q)
    (hq : q.bet = r.non_folded_max_bet) (hlt : r.non_folded_max_bet < r.max_bet) :
    q.bet < r.max_bet ∧
    r.take_action g k pid .check = Room.proceed g k (checkedRoom r pid q) := by
  refine ⟨hq ▸ hlt, ?_⟩
  unfold Room.take_action
  simp [ht, hf, hq, checkedRoom]

/-- Witness for C10: folded player 3 holds the single highest bet (10);
player 1 (bet 5, the non-folded maximum) Checks successfully and the hand
advances with `NoAction`. -/
theorem C10_check_against_non_folded_max_witness :
    c10Room.take_action oracle0 0 1 .check = Room.proceed oracle0 0 (checkedRoom c10Room 1 c10Actor) ∧
    (c10Room.take_action oracle0 0 1 .check).1 = .ok .noAction :=
  ⟨(C10_check_against_non_folded_max oracle0 0 c10Room 1 c10Actor
      (by decide) (by decide) (by decide) (by decide)).2,
   by decide⟩

/-! ## C9 — leave_player idempotence -/

theorem leaveMark_id (pid : Nat) (p : Player) : (leaveMark pid p).id = p.id := by
  unfold leaveMark
  split <;> rfl

theorem leaveMark_chips (pid : Nat) (p : Player) : (leaveMark pid p).chips = p.chips := by
  unfold leaveMark
  split <;> rfl

theorem leaveMark_idem (pid : Nat) (p : Player) :
    leaveMark pid (leaveMark pid p) = leaveMark pid p := by
  simp only [leaveMark]
  by_cases h : p.id == pid <;> simp [h]

theorem find?_map_leaveMark (pid : Nat) (l : List Player) :
    (l.map (leaveMark pid)).find? (fun p => p.id == pid) =
      (l.find? (fun p => p.id == pid)).map (leaveMark pid) := by
  rw [List.find?_map]
  have hpred : ((fun p : Player => p.id == pid) ∘ leaveMark pid) = fun p => p.id == pid := by
    funext p
    simp [Function.comp_def, leaveMark_id]
  rw [hpred]

theorem map_leaveMark_idem (pid : Nat) (l : List Player) :
    (l.map (leaveMark pid)).map (leaveMark pid) = l.map (leaveMark pid) := by
  rw [List.map_map]
  simp [Function.comp_def, leaveMark_idem]

theorem map_leaveMark_eq_self {pid : Nat} {l : List Player}
    (h : ∀ p ∈ l, (p.id == pid) = false) : l.map (leaveMark pid) = l := by
  induction l with
  | nil => rfl
  | cons x xs ih =>
    simp only [List.map_cons]
    rw [ih (fun p hp => h p (List.mem_cons_of_mem _ hp))]
    simp [leaveMark, h x (List.mem_cons_self _ _)]

/-- Members of the post-reset seated list never match the leaver's id:
matching players were marked disconnected and filtered out. -/
theorem leaveSurvivors_no_match (pid : Nat) (l : List Player) :
    ∀ p ∈ leaveSurvivors pid l, (p.id == pid) = false := by
  intro p hp
  rw [leaveSurvivors, List.mem_filter] at hp
  obtain ⟨hmem, hcond⟩ := hp
  rw [List.mem_map] at hmem
  obtain ⟨x, hx, rfl⟩ := hmem
  by_cases h : x.id == pid
  · simp [leaveMark, h] at hcond
  · simp [leaveMark, h]

theorem leaveSurvivors_connected (pid : Nat) (l : List Player) :
    ∀ p ∈ leaveSurvivors pid l, p.is_connected = true := by
  intro p hp
  rw [leaveSurvivors, List.mem_filter] at hp
  have h2 := hp.2
  simp only [Bool.and_eq_true, decide_eq_true_eq] at h2
  exact h2.1

theorem all_not_conn_eq_isEmpty {l : List Player}
    (h : ∀ p ∈ l, p.is_connected = true) :
    l.all (fun p => !p.is_connected) = l.isEmpty := by
  cases l with
  | nil => rfl
  | cons x xs => simp [h x (List.mem_cons_self _ _)]

/-- Unfolded form of the chips value returned by `leave_player`. -/
theorem leave_player_fst (r : Room) (pid : Nat) :
    (r.leave_player pid).1 =
      (((r.players ++ r.player_joining_next_round).find? (fun p => p.id == pid)).map
        (fun p => p.chips)).getD 0 := by
  simp only [Room.leave_player]
  split <;> rfl

/-- Unfolded form of the room left by `leave_player` when some seated
player stays connected (no reset). -/
theorem leave_player_snd_no_reset (r : Room) (pid : Nat)
    (h : ¬ (r.players.map (leaveMark pid)).all (fun p => !p.is_connected) = true) :
    (r.leave_player pid).2 =
      { r with
        players := r.players.map (leaveMark pid)
        player_joining_next_round := r.player_joining_next_round.map (leaveMark pid) } := by
  simp only [Room.leave_player]
  rw [if_neg h]

/-- Unfolded form of the room left by `leave_player` when every seated
player is disconnected after the marking (reset to NotEnoughPlayers). -/
theorem leave_player_snd_reset (r : Room) (pid : Nat)
    (h : (r.players.map (leaveMark pid)).all (fun p => !p.is_connected) = true) :
    (r.leave_player pid).2 =
      { r with
        players := leaveSurvivors pid r.players ++ leaveSurvivors pid r.player_joining_next_round
        player_joining_next_round := []
        pots := []
        community_cards := []
        deck := Deck.new
        player_in_turn := none
        stage := .notEnoughPlayers } := by
  simp only [Room.leave_player]
  rw [if_pos h]
  simp [Room.reset_table, Room.seat_players, leaveSurvivors]

/-- C9 counterexample: in a one-player room, the first `leave_player`
returns the player's 5 chips and resets the table (unseating the leaver);
the immediately repeated call returns 0, not the same chips — though the
room state is unchanged. -/
theorem C9_cex_second_leave_returns_zero :
    (soloRoom.leave_player 1).1 = 5 ∧
    ((soloRoom.leave_player 1).2.leave_player 1).1 = 0 ∧
    ((soloRoom.leave_player 1).2.leave_player 1).2 = (soloRoom.leave_player 1).2 := by
  decide

/-- C9 (amended): `leave_player(id)` twice in a row yields the same room
state as calling it once, and — provided the leaver is still listed in the
room after the first call (i.e. the first call did not reset the table and
unseat the leaver) — the second call also returns the same chips.  When
the first call's reset removed the leaver, the second call returns 0
instead of the first call's chips. -/
theorem C9_amended_leave_idempotent (r : Room) (pid : Nat) :
    ((r.leave_player pid).2.leave_player pid).2 = (r.leave_player pid).2 ∧
    ((((r.leave_player pid).2.players ++
        (r.leave_player pid).2.player_joining_next_round).find?
          (fun p => p.id == pid)).isSome = true →
      ((r.leave_player pid).2.leave_player pid).1 = (r.leave_player pid).1) := by
  by_cases hA : (r.players.map (leaveMark pid)).all (fun p => !p.is_connected) = true
  · -- the first call resets the table
    have h1 := leave_player_snd_reset r pid hA
    have hno : ∀ p ∈ leaveSurvivors pid r.players ++
        leaveSurvivors pid r.player_joining_next_round, (p.id == pid) = false := by
      intro p hp
      rcases List.mem_append.mp hp with h | h
      · exact leaveSurvivors_no_match pid _ p h
      · exact leaveSurvivors_no_match pid _ p h
    have hconn : ∀ p ∈ leaveSurvivors pid r.players ++
        leaveSurvivors pid r.player_joining_next_round, p.is_connected = true := by
      intro p hp
      rcases List.mem_append.mp hp with h | h
      · exact leaveSurvivors_connected pid _ p h
      · exact leaveSurvivors_connected pid _ p h
    have hfind : ((leaveSurvivors pid r.players ++
        leaveSurvivors pid r.player_joining_next_round).find?
          (fun p => p.id == pid)) = none := by
      rw [List.find?_eq_none]
      intro p hp
      simp [hno p hp]
    have hmapself : (leaveSurvivors pid r.players ++
        leaveSurvivors pid r.player_joining_next_round).map (leaveMark pid) =
        leaveSurvivors pid r.players ++ leaveSurvivors pid r.player_joining_next_round :=
      map_leaveMark_eq_self hno
    constructor
    · rw [h1]
      by_cases hE : (leaveSurvivors pid r.players ++
          leaveSurvivors pid r.player_joining_next_round) = []
      · rw [hE]
        rw [leave_player_snd_reset _ _ (by simp)]
        simp [leaveSurvivors]
      · refine (leave_player_snd_no_reset _ _ ?_).trans ?_
        · simp only [hmapself]
          rw [all_not_conn_eq_isEmpty hconn]
          simpa [List.isEmpty_iff] using hE
        · simp [hmapself]
    · intro hsome
      rw [h1] at hsome
      simp only [List.append_nil, hfind, Option.isSome_none] at hsome
      cases hsome
  · -- no reset: both calls only mark, and marking is idempotent
    have h1 := leave_player_snd_no_reset r pid hA
    have hA2 : ¬ ((r.players.map (leaveMark pid)).map (leaveMark pid)).all
        (fun p => !p.is_connected) = true := by
      rw [map_leaveMark_idem]
      exact hA
    constructor
    · rw [h1, leave_player_snd_no_reset _ _ (by simpa using hA2)]
      simp only [map_leaveMark_idem]
    · intro _
      rw [h1, leave_player_fst, leave_player_fst]
      simp only
      rw [← List.map_append, find?_map_leaveMark]
      cases hfo : (r.players ++ r.player_joining_next_round).find? (fun p => p.id == pid) with
      | none => simp [hfo]
      | some q => simp [hfo, leaveMark_chips]

/-- Witness for C9 (amended): a two-player room where player 2 stays
connected, so the repeated leave returns the same chips. -/
theorem C9_amended_leave_idempotent_witness :
    ((((flopRoom.leave_player 1).2.players ++
        (flopRoom.leave_player 1).2.player_joining_next_round).find?
          (fun p => p.id == 1)).isSome = true) ∧
    ((flopRoom.leave_player 1).2.leave_player 1).2 = (flopRoom.leave_player 1).2 ∧
    ((flopRoom.leave_player 1).2.leave_player 1).1 = (flopRoom.leave_player 1).1 := by
  refine ⟨by decide, (C9_amended_leave_idempotent flopRoom 1).1,
    (C9_amended_leave_idempotent flopRoom 1).2 (by decide)⟩

/-! ## C7 — the ProceedType case analysis -/

theorem foldl_max_bounds (l : List Nat) (a : Nat) :
    (∀ x ∈ l, x ≤ l.foldl Nat.max a) ∧ a ≤ l.foldl Nat.max a := by
  induction l generalizing a with
  | nil => simp
  | cons y ys ih =>
    refine ⟨?_, ?_⟩
    · intro x hx
      rcases List.mem_cons.mp hx with rfl | hmem
      · exact le_trans (Nat.le_max_right a x) (ih (Nat.max a x)).2
      · exact (ih _).1 x hmem
    · exact le_trans (Nat.le_max_left a y) (ih _).2

/-- Every seated player's bet is at most `Room::max_bet`. -/
theorem bet_le_max_bet (r : Room) : ∀ p ∈ r.players, p.bet ≤ r.max_bet := by
  intro p hp
  exact (foldl_max_bounds (r.players.map (·.bet)) 0).1 p.bet
    (List.mem_map_of_mem _ hp)

/-- C7: in every betting stage (PreFlop, Flop, Turn, River) with at least
one non-folded seated player, `can_proceed_to_next_stage` computes exactly
the ProceedType described by the claim (`proceedTypeSpec`), determined
from the seated players and ignoring the waiting list; moreover every
seated player's bet is at most `max_bet`, so "bet below the maximum" and
"bet different from the maximum" coincide. -/
theorem C7_proceed_type_cases (r : Room)
    (hstage : r.stage = .preFlop ∨ r.stage = .flop ∨ r.stage = .turn ∨ r.stage = .river)
    (hnf : r.players.filter (fun p => !p.has_folded) ≠ []) :
    r.can_proceed_to_next_stage = some (proceedTypeSpec r) ∧
    ∀ p ∈ r.players, p.bet ≤ r.max_bet := by
  refine ⟨?_, bet_le_max_bet r⟩
  have hpt : r.can_proceed_to_next_stage = r.proceed_type := by
    rcases hstage with h | h | h | h <;> rw [Room.can_proceed_to_next_stage, h]
  rw [hpt, Room.proceed_type, proceedTypeSpec]
  cases hfil : r.players.filter (fun p => !p.has_folded) with
  | nil => exact absurd hfil hnf
  | cons a l =>
    cases l with
    | nil => simp
    | cons b t =>
      simp only [List.length_cons, Nat.succ_ne_self]
      cases hch : (a :: b :: t).filter (fun p => decide (0 < p.chips)) with
      | nil => simp [hch]
      | cons c m =>
        cases m with
        | nil =>
          simp only [hch, List.length_cons, List.length_nil]
          by_cases hb : c.bet = r.max_bet <;> simp [hb]
        | cons d m2 =>
          simp only [hch, List.length_cons]
          simp only [Nat.succ_ne_self, if_false, Nat.succ_ne_zero]
          simp
          split <;> simp

/-- Witness for C7 at the concrete heads-up PreFlop room. -/
theorem C7_proceed_type_cases_witness :
    headsUpPreFlop.can_proceed_to_next_stage = some (proceedTypeSpec headsUpPreFlop) ∧
    ∀ p ∈ headsUpPreFlop.players, p.bet ≤ headsUpPreFlop.max_bet :=
  C7_proceed_type_cases headsUpPreFlop (Or.inl rfl) (by decide)

/-! ## C5 — end_stage side-pot computation matches the spec's algorithm -/

theorem foldl_add_const (l : List (Nat × Nat)) (s a : Nat) :
    l.foldl (fun acc _ => acc + s) a = a + s * l.length := by
  induction l generalizing a with
  | nil => simp
  | cons y ys ih =>
    simp only [List.foldl_cons, ih, List.length_cons]
    rw [Nat.mul_succ]
    omega

theorem foldl_insert_toFinset (l : List (Nat × Nat)) (init : Finset Nat) :
    l.foldl (fun s x => insert x.1 s) init = init ∪ (l.map (·.1)).toFinset := by
  induction l generalizing init with
  | nil => simp
  | cons y ys ih =>
    simp only [List.foldl_cons, ih, List.map_cons, List.toFinset_cons]
    ext x
    simp only [Finset.mem_union, Finset.mem_insert, List.mem_toFinset]
    tauto

theorem mem_insertBetDesc {x y : Nat × Nat} {l : List (Nat × Nat)} :
    x ∈ insertBetDesc y l ↔ x = y ∨ x ∈ l := by
  induction l with
  | nil => simp [insertBetDesc]
  | cons z zs ih =>
    rw [insertBetDesc]
    by_cases hc : z.2 < y.2
    · simp [hc]
    · simp only [hc, if_false, List.mem_cons, ih]
      tauto

theorem pairwise_insertBetDesc {y : Nat × Nat} {l : List (Nat × Nat)}
    (h : l.Pairwise (fun a b => b.2 ≤ a.2)) :
    (insertBetDesc y l).Pairwise (fun a b => b.2 ≤ a.2) := by
  induction l with
  | nil => simp [insertBetDesc]
  | cons z zs ih =>
    rw [insertBetDesc]
    rw [List.pairwise_cons] at h
    by_cases hc : z.2 < y.2
    · rw [if_pos hc, List.pairwise_cons]
      refine ⟨?_, List.pairwise_cons.mpr h⟩
      intro b hb
      rcases List.mem_cons.mp hb with rfl | hmem
      · exact Nat.le_of_lt hc
      · exact le_trans (h.1 b hmem) (Nat.le_of_lt hc)
    · rw [if_neg hc, List.pairwise_cons]
      refine ⟨?_, ih h.2⟩
      intro b hb
      rcases mem_insertBetDesc.mp hb with rfl | hmem
      · exact Nat.not_lt.mp hc
      · exact h.1 b hmem

theorem pairwise_sortBetDesc (l : List (Nat × Nat)) :
    (sortBetDesc l).Pairwise (fun a b => b.2 ≤ a.2) := by
  induction l with
  | nil => simp [sortBetDesc]
  | cons y ys ih =>
    simp only [sortBetDesc, List.foldr_cons] at ih ⊢
    exact pairwise_insertBetDesc ih

theorem pairwise_desc_getLast_le {l : List (Nat × Nat)} (hne : l ≠ [])
    (h : l.Pairwise (fun a b => b.2 ≤ a.2)) :
    ∀ x ∈ l, (l.getLast hne).2 ≤ x.2 := by
  induction l with
  | nil => exact absurd rfl hne
  | cons y ys ih =>
    intro x hx
    rw [List.pairwise_cons] at h
    cases ys with
    | nil =>
      rcases List.mem_cons.mp hx with rfl | hmem
      · simp [List.getLast]
      · cases hmem
    | cons z zs =>
      rw [List.getLast_cons (by simp)]
      rcases List.mem_cons.mp hx with rfl | hmem
      · exact h.1 _ (List.getLast_mem _)
      · exact ih (by simp) h.2 x hmem

theorem foldl_min_eq {l : List Nat} {a m : Nat} (hma : m ≤ a)
    (hml : ∀ x ∈ l, m ≤ x) (hmem : m = a ∨ m ∈ l) : l.foldl Nat.min a = m := by
  induction l generalizing a with
  | nil =>
    rcases hmem with rfl | h
    · rfl
    · cases h
  | cons y ys ih =>
    simp only [List.foldl_cons]
    have hmy : m ≤ y := hml y (List.mem_cons_self _ _)
    rcases hmem with rfl | hmem'
    · exact ih (Nat.le_min.mpr ⟨le_refl m, hmy⟩)
        (fun x hx => hml x (List.mem_cons_of_mem _ hx))
        (Or.inl (Nat.min_eq_left hmy).symm)
    · rcases List.mem_cons.mp hmem' with rfl | hmem2
      · exact ih (Nat.le_min.mpr ⟨hma, le_refl m⟩)
          (fun x hx => hml x (List.mem_cons_of_mem _ hx))
          (Or.inl (Nat.min_eq_right hma).symm)
      · exact ih (Nat.le_min.mpr ⟨hma, hmy⟩)
          (fun x hx => hml x (List.mem_cons_of_mem _ hx))
          (Or.inr hmem2)

/-- On a descending-sorted layer the claim's "smallest remaining bet" is
the last entry's bet — the one `end_stage` peels. -/
theorem smallest_eq_getLast {b : Nat × Nat} {bs : List (Nat × Nat)}
    (h : (b :: bs).Pairwise (fun a c => c.2 ≤ a.2)) :
    (bs.map (·.2)).foldl Nat.min b.2 = ((b :: bs).getLast (by simp)).2 := by
  apply foldl_min_eq
  · exact pairwise_desc_getLast_le (by simp) h b (List.mem_cons_self _ _)
  · intro x hx
    rw [List.mem_map] at hx
    obtain ⟨p, hp, rfl⟩ := hx
    exact pairwise_desc_getLast_le (by simp) h p (List.mem_cons_of_mem _ hp)
  · have hmem := List.getLast_mem (show b :: bs ≠ [] by simp)
    rcases List.mem_cons.mp hmem with heq | hmem2
    · exact Or.inl (by rw [heq])
    · exact Or.inr (by rw [List.mem_map]; exact ⟨_, hmem2, rfl⟩)

theorem potLayerStep_eq_spec {b : Nat × Nat} {bs : List (Nat × Nat)}
    (h : (b :: bs).Pairwise (fun a c => c.2 ≤ a.2)) :
    potLayerStep b bs =
      ({ amount := ((bs.map (·.2)).foldl Nat.min b.2) * (b :: bs).length
         players := ((b :: bs).map (·.1)).toFinset },
       ((b :: bs).map (fun x =>
         (x.1, x.2 - (bs.map (·.2)).foldl Nat.min b.2))).filter
           (fun x => decide (0 < x.2))) := by
  rw [smallest_eq_getLast h]
  simp only [potLayerStep, Prod.mk.injEq]
  refine ⟨?_, trivial⟩
  rw [Pot.mk.injEq]
  constructor
  · rw [foldl_add_const]
    omega
  · rw [foldl_insert_toFinset]
    simp

theorem pairwise_desc_step (c : Nat) {l : List (Nat × Nat)}
    (h : l.Pairwise (fun a b => b.2 ≤ a.2)) :
    ((l.map (fun x => (x.1, x.2 - c))).filter (fun x => decide (0 < x.2))).Pairwise
      (fun a b => b.2 ≤ a.2) := by
  apply List.Pairwise.filter
  exact List.Pairwise.map _ (fun a b hab => Nat.sub_le_sub_right hab c) h

theorem potLayersGo_eq_specPeelGo :
    ∀ (fuel : Nat) (l : List (Nat × Nat)), l.Pairwise (fun a b => b.2 ≤ a.2) →
      potLayersGo fuel l = specPeelGo fuel l := by
  intro fuel
  induction fuel with
  | zero => intro l _; cases l <;> rfl
  | succ f ih =>
    intro l h
    cases l with
    | nil => rfl
    | cons b bs =>
      simp only [potLayersGo, specPeelGo]
      rw [potLayerStep_eq_spec h]
      exact congrArg _ (ih _ (pairwise_desc_step _ h))

theorem foldl_merge_eq_specMergeGo :
    ∀ (rest acc : List Pot) (cur : Pot),
      rest.foldl (fun acc q =>
        match acc.getLast? with
        | some lastPot =>
          if lastPot.players = q.players then
            acc.dropLast ++ [{ lastPot with amount := lastPot.amount + q.amount }]
          else acc ++ [q]
        | none => acc ++ [q]) (acc ++ [cur]) = acc ++ specMergeGo cur rest := by
  intro rest
  induction rest with
  | nil =>
    intro acc cur
    simp [specMergeGo]
  | cons q rest ih =>
    intro acc cur
    simp only [List.foldl_cons, List.getLast?_concat]
    by_cases hc : cur.players = q.players
    · rw [if_pos hc, List.dropLast_concat, ih]
      simp [specMergeGo, hc]
    · rw [if_neg hc, ih (acc ++ [cur]) q]
      simp [specMergeGo, hc]

/-- C5: whenever a betting-stage `end_stage` succeeds (the stage
advances), the room it produces is exactly the one described by the spec:
non-zero bets sorted descending, layers peeled at the smallest remaining
bet into one pot of (smallest × layer size) chips eligible to exactly the
players still in the layer, consecutive pots with identical player sets
merged across the whole pot list, and every player's bet zeroed with
turn-taken and last-action cleared. -/
theorem C5_end_stage_side_pots (r : Room)
    (hstage : r.stage = .preFlop ∨ r.stage = .flop ∨ r.stage = .turn ∨ r.stage = .river)
    (hok : (r.end_stage).1 = .ok ()) :
    (r.end_stage).2 = specEndStage r := by
  have hlayers : potLayers (sortBetDesc
      ((r.players.filter (fun p => decide (0 < p.bet))).map (fun p => (p.id, p.bet)))) =
      specPeelGo (sortBetDesc
      ((r.players.filter (fun p => decide (0 < p.bet))).map (fun p => (p.id, p.bet)))).length
      (sortBetDesc
      ((r.players.filter (fun p => decide (0 < p.bet))).map (fun p => (p.id, p.bet)))) :=
    potLayersGo_eq_specPeelGo _ _ (pairwise_sortBetDesc _)
  rcases hstage with h | h | h | h <;>
  · simp only [Room.end_stage, h] at hok ⊢
    rw [hlayers] at hok ⊢
    cases hp : r.pots ++ specPeelGo (sortBetDesc
        ((r.players.filter (fun p => decide (0 < p.bet))).map (fun p => (p.id, p.bet)))).length
        (sortBetDesc
        ((r.players.filter (fun p => decide (0 < p.bet))).map (fun p => (p.id, p.bet)))) with
    | nil =>
      rw [hp] at hok
      simp at hok
    | cons first restPots =>
      clear hok
      have hm := foldl_merge_eq_specMergeGo restPots [] first
      simp only [List.nil_append] at hm
      dsimp only
      simp only [specEndStage]
      rw [hp]
      simp only [specMerge]
      rw [hm, h]

/-- Witness for C5 at a concrete three-player Flop room with bets
5, 5 and 10 (the 10 belonging to a folded player). -/
theorem C5_end_stage_side_pots_witness :
    (c10Room.end_stage).2 = specEndStage c10Room :=
  C5_end_stage_side_pots c10Room (Or.inr (Or.inl rfl)) (by decide)

/-! ## C6 — split_pot payouts: supporting lemmas -/

theorem addChips_map_id (g : Nat → Nat) (l : List Player) :
    (addChips g l).map (·.id) = l.map (·.id) := by
  simp [addChips, List.map_map, Function.comp_def]

theorem addChips_zero (l : List Player) : addChips (fun _ => 0) l = l := by
  simp [addChips]

/-- Pointwise congruence for `addChips` over the seated ids. -/
theorem addChips_congr {g g' : Nat → Nat} {l : List Player}
    (h : ∀ p ∈ l, g p.id = g' p.id) : addChips g l = addChips g' l := by
  unfold addChips
  exact List.map_congr_left (fun p hp => by rw [h p hp])

theorem addChips_filter (g : Nat → Nat) (ids : Finset Nat) (l : List Player) :
    (addChips g l).filter (fun p => p.id ∈ ids) =
      addChips g (l.filter (fun p => p.id ∈ ids)) := by
  unfold addChips
  rw [List.filter_map]
  rfl

/-- `closestToDealer` only reads seat order, ids and positions, so
crediting chips does not change it. -/
theorem closestToDealer_addChips (g : Nat → Nat) (l : List Player) (ids : Finset Nat) :
    closestToDealer (addChips g l) ids = closestToDealer l ids := by
  unfold closestToDealer
  rw [addChips, List.findIdx?_map]
  have hpred : ((fun p : Player =>
      p.position == Position.dealer || p.position == Position.dealerAndSmallBlind) ∘
      (fun p => { p with chips := p.chips + g p.id })) =
      fun p : Player =>
        p.position == Position.dealer || p.position == Position.dealerAndSmallBlind := rfl
  rw [hpred, List.length_map]
  cases l.findIdx? (fun p =>
      p.position == Position.dealer || p.position == Position.dealerAndSmallBlind) with
  | none => rfl
  | some di =>
    have hfun : (fun index => match (l.map (fun p =>
          ({ p with chips := p.chips + g p.id } : Player))).get? index with
        | some p => if p.id ∈ ids then some p.id else none
        | none => none) =
        (fun index => match l.get? index with
        | some p => if p.id ∈ ids then some p.id else none
        | none => none) := by
      funext index
      rw [List.get?_map]
      cases l.get? index <;> rfl
    simp only [hfun]

/-- Every residue below `len` is hit by one full clockwise cycle. -/
theorem mem_cycle_indices {len next m : Nat} (hm : m < len) :
    m ∈ (List.range len).map (fun j => (next + j) % len) := by
  have hlen : 0 < len := Nat.lt_of_le_of_lt (Nat.zero_le m) hm
  rw [List.mem_map]
  refine ⟨(m + len - next % len) % len, List.mem_range.mpr (Nat.mod_lt _ hlen), ?_⟩
  rw [Nat.add_mod next ((m + len - next % len) % len) len,
    Nat.mod_mod_of_dvd _ (dvd_refl len), ← Nat.add_mod]
  have hsplit := Nat.mod_add_div next len
  have hlt : next % len < len := Nat.mod_lt _ hlen
  rw [show next + (m + len - next % len) = m + len + len * (next / len) by omega]
  rw [Nat.add_mul_mod_self_left, Nat.add_mod_right]
  exact Nat.mod_eq_of_lt hm

/-- With a dealer seated and some seated winner, `closestToDealer`
succeeds, and its result is a seated member of `ids`. -/
theorem closestToDealer_ok (l : List Player) (ids : Finset Nat)
    (hd : ∃ p ∈ l, (p.position == Position.dealer ||
      p.position == Position.dealerAndSmallBlind) = true)
    (hw : ∃ p ∈ l, p.id ∈ ids) :
    ∃ w, closestToDealer l ids = .ok w ∧ w ∈ ids ∧ ∃ p ∈ l, p.id = w := by
  unfold closestToDealer
  cases hIdx : l.findIdx? (fun p =>
      p.position == Position.dealer || p.position == Position.dealerAndSmallBlind) with
  | none =>
    rw [List.findIdx?_eq_none_iff] at hIdx
    obtain ⟨p, hp, hpd⟩ := hd
    rw [hIdx p hp] at hpd
    cases hpd
  | some di =>
    cases hFS : ((List.range l.length).map (fun j => ((di + 1) % l.length + j) % l.length)).findSome?
        (fun index => match l.get? index with
          | some p => if p.id ∈ ids then some p.id else none
          | none => none) with
    | none =>
      exfalso
      rw [List.findSome?_eq_none_iff] at hFS
      obtain ⟨p, hp, hpid⟩ := hw
      obtain ⟨n, hn⟩ := List.mem_iff_get?.mp hp
      have hnlt : n < l.length := by
        obtain ⟨h, _⟩ := List.get?_eq_some.mp hn
        exact h
      have hcontr := hFS n (mem_cycle_indices hnlt)
      rw [hn] at hcontr
      simp only [if_pos hpid] at hcontr
      cases hcontr
    | some w =>
      obtain ⟨l₁, a, l₂, hdecomp, hfa, _⟩ := List.findSome?_eq_some_iff.mp hFS
      refine ⟨w, ?_, ?_⟩
      · dsimp only
        rw [hFS]
      · cases hga : l.get? a with
        | none => rw [hga] at hfa; cases hfa
        | some p =>
          rw [hga] at hfa
          dsimp only at hfa
          by_cases hmem : p.id ∈ ids
          · rw [if_pos hmem] at hfa
            obtain rfl : p.id = w := by injection hfa
            exact ⟨hmem, p, List.get?_mem hga, rfl⟩
          · rw [if_neg hmem] at hfa
            cases hfa

/-- With distinct seated ids, updating the first id-match of a credited
list is again a pointwise credit. -/
theorem updateFirst_addChips (g : Nat → Nat) (cw rem : Nat) :
    ∀ {base : List Player}, (base.map (·.id)).Nodup →
    updateFirst (fun p => p.id == cw) (fun p => { p with chips := p.chips + rem })
      (addChips g base) =
      addChips (fun i => g i + if i = cw then rem else 0) base := by
  intro base
  induction base with
  | nil => intro _; rfl
  | cons p ps ih =>
    intro hnd
    rw [List.map_cons, List.nodup_cons] at hnd
    simp only [addChips, List.map_cons, updateFirst]
    by_cases hc : p.id = cw
    · rw [if_pos (by simp [hc])]
      simp only [List.cons.injEq]
      subst hc
      refine ⟨by simp [Nat.add_assoc], ?_⟩
      refine List.map_congr_left (fun q hq => ?_)
      rw [if_neg, Nat.add_zero]
      intro h
      apply hnd.1
      rw [← h]
      exact List.mem_map_of_mem _ hq
    · rw [if_neg (by simp [hc])]
      simp only [List.cons.injEq]
      exact ⟨by simp [hc], ih hnd.2⟩

/-- With distinct player ids, adding the remainder to the first matching
winnings entry is a pointwise update. -/
theorem updateFirst_winnings (cw e rem : Nat) :
    ∀ {l : List Player}, (l.map (·.id)).Nodup →
    updateFirst (fun w => w.player == cw) (fun w => { w with amount := w.amount + rem })
      (l.map (fun p => Winnings.mk p.id e)) =
      l.map (fun p => Winnings.mk p.id (e + if p.id = cw then rem else 0)) := by
  intro l
  induction l with
  | nil => intro _; rfl
  | cons p ps ih =>
    intro hnd
    rw [List.map_cons, List.nodup_cons] at hnd
    simp only [List.map_cons, updateFirst]
    by_cases hc : p.id = cw
    · rw [if_pos (by simp [hc])]
      simp only [List.cons.injEq]
      subst hc
      refine ⟨by simp, ?_⟩
      refine List.map_congr_left (fun q hq => ?_)
      rw [if_neg, Nat.add_zero]
      intro h
      apply hnd.1
      rw [← h]
      exact List.mem_map_of_mem _ hq
    · rw [if_neg (by simp [hc])]
      simp only [List.cons.injEq]
      exact ⟨by simp [hc], ih hnd.2⟩

/-- Summing a constant-plus-variable payout splits into the constant part
and the variable part. -/
theorem sum_map_const_add (l : List α) (e : Nat) (h : α → Nat) :
    (l.map (fun x => e + h x)).sum = l.length * e + (l.map h).sum := by
  induction l with
  | nil => simp
  | cons x xs ih =>
    simp only [List.map_cons, List.sum_cons, ih, List.length_cons, Nat.succ_mul]
    omega

theorem sum_map_const_nat (l : List α) (e : Nat) :
    (l.map (fun _ => e)).sum = l.length * e := by
  induction l with
  | nil => simp
  | cons x xs ih =>
    simp only [List.map_cons, List.sum_cons, ih, List.length_cons, Nat.succ_mul]
    omega

theorem sum_if_unique (rem cw : Nat) :
    ∀ {l : List Nat}, l.Nodup → cw ∈ l →
      (l.map (fun i => if i = cw then rem else 0)).sum = rem := by
  intro l
  induction l with
  | nil => intro _ h; cases h
  | cons x xs ih =>
    intro hnd hcw
    rw [List.nodup_cons] at hnd
    rcases List.mem_cons.mp hcw with heq | hmem
    · have hx : x = cw := heq.symm
      simp only [List.map_cons, List.sum_cons, if_pos hx]
      have hcwn : cw ∉ xs := by rw [← hx]; exact hnd.1
      have hz : xs.map (fun i => if i = cw then rem else 0) = xs.map (fun _ => 0) := by
        refine List.map_congr_left (fun q hq => ?_)
        rw [if_neg]
        intro h
        apply hcwn
        rw [← h]
        exact hq
      rw [hz, sum_map_const_nat]
      simp
    · have hx : ¬ x = cw := by
        intro h
        apply hnd.1
        rw [h]
        exact hmem
      simp only [List.map_cons, if_neg hx, List.sum_cons, Nat.zero_add]
      exact ih hnd.2 hmem

theorem filter_map_id_sub (base : List Player) (ids : Finset Nat) :
    (base.filter (fun p => p.id ∈ ids)).map (·.id) =
      (base.map (·.id)).filter (fun i => i ∈ ids) := by
  induction base with
  | nil => rfl
  | cons p ps ih => by_cases h : p.id ∈ ids <;> simp [h, ih]

theorem length_filter_eq_card {base : List Player} {ids : Finset Nat}
    (hnd : (base.map (·.id)).Nodup)
    (hsub : ∀ i ∈ ids, ∃ p ∈ base, p.id = i) :
    (base.filter (fun p => p.id ∈ ids)).length = ids.card := by
  have h1 : ((base.filter (fun p => p.id ∈ ids)).map (·.id)).Nodup := by
    rw [filter_map_id_sub]
    exact hnd.filter _
  have h2 : ((base.filter (fun p => p.id ∈ ids)).map (·.id)).toFinset = ids := by
    ext i
    rw [List.mem_toFinset, filter_map_id_sub, List.mem_filter]
    constructor
    · rintro ⟨_, hi⟩
      exact of_decide_eq_true hi
    · intro hi
      obtain ⟨p, hp, rfl⟩ := hsub i hi
      exact ⟨List.mem_map_of_mem _ hp, decide_eq_true hi⟩
  calc (base.filter (fun p => p.id ∈ ids)).length
      = ((base.filter (fun p => p.id ∈ ids)).map (·.id)).length :=
        (List.length_map _ _).symm
    _ = ((base.filter (fun p => p.id ∈ ids)).map (·.id)).toFinset.card :=
        (List.toFinset_card_of_nodup h1).symm
    _ = ids.card := by rw [h2]

theorem mem_filter_ids {base : List Player} {ids : Finset Nat} {cw : Nat}
    (hcw : cw ∈ ids) (hseat : ∃ p ∈ base, p.id = cw) :
    cw ∈ (base.filter (fun p => p.id ∈ ids)).map (·.id) := by
  obtain ⟨p, hp, rfl⟩ := hseat
  exact List.mem_map_of_mem _ (List.mem_filter.mpr ⟨hp, decide_eq_true hcw⟩)

/-- Each pot's payout list sums to exactly the pot amount. -/
theorem potPayoutSpec_sum {base : List Player} {ids : Finset Nat} {cw : Nat} (amount : Nat)
    (hnd : (base.map (·.id)).Nodup)
    (hsub : ∀ i ∈ ids, ∃ p ∈ base, p.id = i)
    (hcw : cw ∈ ids) (hwseat : ∃ p ∈ base, p.id = cw) :
    ((potPayoutSpec base amount ids cw).map (·.amount)).sum = amount := by
  unfold potPayoutSpec
  rw [List.map_map]
  have hcomp : ((fun w : Winnings => w.amount) ∘ fun p : Player =>
      Winnings.mk p.id (amount / ids.card + if p.id = cw then amount % ids.card else 0)) =
      fun p : Player => amount / ids.card + if p.id = cw then amount % ids.card else 0 := rfl
  rw [hcomp, sum_map_const_add (base.filter (fun p => p.id ∈ ids)) (amount / ids.card)
    (fun p => if p.id = cw then amount % ids.card else 0)]
  rw [length_filter_eq_card hnd hsub]
  have hif : (base.filter (fun p => p.id ∈ ids)).map
      (fun p => if p.id = cw then amount % ids.card else 0) =
      ((base.filter (fun p => p.id ∈ ids)).map (·.id)).map
      (fun i => if i = cw then amount % ids.card else 0) := by
    rw [List.map_map]
    rfl
  rw [hif, sum_if_unique _ _ (by rw [filter_map_id_sub]; exact hnd.filter _)
    (mem_filter_ids hcw hwseat)]
  exact Nat.div_add_mod amount ids.card

theorem wonIn_nil (i : Nat) : wonIn [] i = 0 := rfl

theorem wonIn_cons (h : List Winnings) (t : List (List Winnings)) (i : Nat) :
    wonIn (h :: t) i =
      ((h.filter (fun x => x.player == i)).map (·.amount)).sum + wonIn t i := by
  unfold wonIn
  rw [List.flatten_cons, List.filter_append, List.map_append, List.sum_append]

theorem filter_eq_single {i : Nat} :
    ∀ {l : List Player}, (l.map (·.id)).Nodup → ∀ {p : Player}, p ∈ l → p.id = i →
      l.filter (fun q => q.id == i) = [p] := by
  intro l
  induction l with
  | nil => intro _ p hp; cases hp
  | cons x xs ih =>
    intro hnd p hp hpi
    rw [List.map_cons, List.nodup_cons] at hnd
    rcases List.mem_cons.mp hp with rfl | hmem
    · rw [List.filter_cons, if_pos (by simp [hpi])]
      have hnil : xs.filter (fun q => q.id == i) = [] := by
        rw [List.filter_eq_nil_iff]
        intro q hq hqi
        apply hnd.1
        have h2 : q.id = i := by simpa using hqi
        rw [← hpi] at h2
        rw [← h2]
        exact List.mem_map_of_mem _ hq
      rw [hnil]
    · have hx : ¬ (x.id == i) = true := by
        simp only [beq_iff_eq]
        intro h
        apply hnd.1
        rw [h, ← hpi]
        exact List.mem_map_of_mem _ hmem
      rw [List.filter_cons, if_neg hx]
      exact ih hnd.2 hmem hpi

/-- The amount one pot's payout list credits to a seated player. -/
theorem wonIn_potPayoutSpec (base : List Player) (ids : Finset Nat) (cw : Nat)
    (amount : Nat) (hnd : (base.map (·.id)).Nodup) {i : Nat} (hi : i ∈ base.map (·.id)) :
    (((potPayoutSpec base amount ids cw).filter (fun x => x.player == i)).map (·.amount)).sum =
      if i ∈ ids then amount / ids.card + (if i = cw then amount % ids.card else 0)
      else 0 := by
  unfold potPayoutSpec
  rw [List.filter_map]
  have hcomp : ((fun x : Winnings => x.player == i) ∘ fun p : Player =>
      Winnings.mk p.id (amount / ids.card + if p.id = cw then amount % ids.card else 0)) =
      fun p : Player => p.id == i := rfl
  rw [hcomp]
  by_cases hmem : i ∈ ids
  · rw [if_pos hmem]
    obtain ⟨p, hp, hpi⟩ : ∃ p ∈ base, p.id = i := by
      rw [List.mem_map] at hi
      obtain ⟨p, hp, hpi⟩ := hi
      exact ⟨p, hp, hpi⟩
    have hpq : p ∈ base.filter (fun q => q.id ∈ ids) :=
      List.mem_filter.mpr ⟨hp, by rw [hpi]; exact decide_eq_true hmem⟩
    have hndf : ((base.filter (fun q => q.id ∈ ids)).map (·.id)).Nodup := by
      rw [filter_map_id_sub]
      exact hnd.filter _
    rw [filter_eq_single hndf hpq hpi]
    simp [hpi]
  · rw [if_neg hmem]
    have hnil : (base.filter (fun q => q.id ∈ ids)).filter (fun q => q.id == i) = [] := by
      rw [List.filter_eq_nil_iff]
      intro q hq hqi
      apply hmem
      have h1 := (List.mem_filter.mp hq).2
      have h2 : q.id = i := by simpa using hqi
      rw [← h2]
      exact of_decide_eq_true h1
    rw [hnil]
    rfl

theorem map_credit_addChips (g : Nat → Nat) (ids : Finset Nat) (e : Nat) (l : List Player) :
    (addChips g l).map (fun p =>
      if p.id ∈ ids then { p with chips := p.chips + e } else p) =
      addChips (fun i => g i + if i ∈ ids then e else 0) l := by
  unfold addChips
  rw [List.map_map]
  refine List.map_congr_left (fun p _ => ?_)
  by_cases h : p.id ∈ ids <;> simp [Function.comp_def, h, Nat.add_assoc]

theorem map_mk_addChips (g : Nat → Nat) (e : Nat) (fl : List Player) :
    (addChips g fl).map (fun p => Winnings.mk p.id e) =
      fl.map (fun p => Winnings.mk p.id e) := by
  unfold addChips
  rw [List.map_map]
  rfl

/-- The `for (amount, winner_ids) in winners` loop of `split_pot`, fully
characterised: starting from seats credited by `g`, it returns the
spec-described payout lists and credits exactly those payouts on top. -/
theorem splitPotGo_spec {base : List Player}
    (hnd : (base.map (·.id)).Nodup)
    (hdealer : ∃ p ∈ base, (p.position == Position.dealer ||
      p.position == Position.dealerAndSmallBlind) = true) :
    ∀ (winners : List (Nat × Finset Nat)) (g : Nat → Nat),
      (∀ pw ∈ winners, pw.2.Nonempty ∧ ∀ i ∈ pw.2, ∃ p ∈ base, p.id = i) →
      splitPotGo (addChips g base) winners =
        (.ok (potPayouts base winners),
         addChips (fun i => g i + wonIn (potPayouts base winners) i) base) := by
  intro winners
  induction winners with
  | nil =>
    intro g hW
    simp only [splitPotGo, potPayouts, List.map_nil, Prod.mk.injEq]
    exact ⟨trivial, addChips_congr (fun p _ => by rw [wonIn_nil, Nat.add_zero])⟩
  | cons pw rest ih =>
    intro g hW
    obtain ⟨hne, hseat⟩ := hW pw (List.mem_cons_self _ _)
    obtain ⟨amount, ids⟩ := pw
    have hcard : ¬ ids.card = 0 := Nat.pos_iff_ne_zero.mp (Finset.card_pos.mpr hne)
    obtain ⟨i0, hi0⟩ := hne
    have hw0 : ∃ p ∈ base, p.id ∈ ids := by
      obtain ⟨p, hp, hpid⟩ := hseat i0 hi0
      exact ⟨p, hp, by rw [hpid]; exact hi0⟩
    obtain ⟨cw, hcw_eq, hcw_ids, hcw_seat⟩ := closestToDealer_ok base ids hdealer hw0
    simp only [splitPotGo]
    rw [if_neg hcard]
    rw [map_credit_addChips g ids (amount / ids.card) base]
    rw [closestToDealer_addChips, hcw_eq]
    dsimp only
    cases hfind : (addChips (fun i => g i + if i ∈ ids then amount / ids.card else 0)
        base).find? (fun p => p.id == cw) with
    | none =>
      exfalso
      rw [List.find?_eq_none] at hfind
      obtain ⟨p, hp, hpid⟩ := hcw_seat
      have hmem : ({ p with chips := p.chips +
          (fun i => g i + if i ∈ ids then amount / ids.card else 0) p.id } : Player) ∈
          addChips (fun i => g i + if i ∈ ids then amount / ids.card else 0) base :=
        List.mem_map_of_mem _ hp
      have := hfind _ hmem
      simp [hpid] at this
    | some q0 =>
      rw [addChips_filter, map_mk_addChips]
      rw [updateFirst_addChips _ cw (amount % ids.card) hnd]
      rw [updateFirst_winnings cw (amount / ids.card) (amount % ids.card)
        (by rw [filter_map_id_sub]; exact hnd.filter _)]
      rw [ih _ (fun pw hpw => hW pw (List.mem_cons_of_mem _ hpw))]
      simp only [potPayouts, List.map_cons, hcw_eq, Prod.mk.injEq]
      refine ⟨rfl, ?_⟩
      refine addChips_congr (fun p hp => ?_)
      rw [wonIn_cons]
      have hhead := wonIn_potPayoutSpec base ids cw amount hnd
        (List.mem_map_of_mem _ hp)
      rw [hhead]
      by_cases hpin : p.id ∈ ids
      · by_cases hpcw : p.id = cw
        · simp only [if_pos hpin, if_pos hpcw]
          omega
        · simp only [if_pos hpin, if_neg hpcw]
          omega
      · have hpcw : ¬ p.id = cw := fun h => hpin (by rw [h]; exact hcw_ids)
        simp only [if_neg hpin, if_neg hpcw]
        omega

/-- C6: whenever every pot's winner set is non-empty and entirely seated
and a dealer seat exists, `split_pot` succeeds, returns one payout list
per pot in which every winner of a pot is credited amount / |winners|
chips with the extra amount % |winners| going to the winner closest
clockwise from the dealer (`potPayoutSpec`), credits exactly those
amounts to the seats, and each pot's payout list sums to the pot's
amount. -/
theorem C6_split_pot_payouts (r : Room) (winners : List (Nat × Finset Nat))
    (hnd : (r.players.map (·.id)).Nodup)
    (hdealer : ∃ p ∈ r.players, (p.position == Position.dealer ||
      p.position == Position.dealerAndSmallBlind) = true)
    (hW : ∀ pw ∈ winners, pw.2.Nonempty ∧ ∀ i ∈ pw.2, ∃ p ∈ r.players, p.id = i) :
    r.split_pot winners =
      (.ok (potPayouts r.players winners),
       { r with players := addChips (wonIn (potPayouts r.players winners)) r.players }) ∧
    ∀ pw ∈ winners, ∃ w, closestToDealer r.players pw.2 = .ok w ∧
      ((potPayoutSpec r.players pw.1 pw.2 w).map (·.amount)).sum = pw.1 := by
  constructor
  · have h0 := splitPotGo_spec hnd hdealer winners (fun _ => 0) hW
    rw [addChips_zero] at h0
    have hg : addChips (fun i => 0 + wonIn (potPayouts r.players winners) i) r.players =
        addChips (wonIn (potPayouts r.players winners)) r.players :=
      addChips_congr (fun p _ => Nat.zero_add _)
    rw [hg] at h0
    unfold Room.split_pot
    rw [h0]
  · intro pw hm
    obtain ⟨hne, hseat⟩ := hW pw hm
    obtain ⟨i0, hi0⟩ := hne
    have hw0 : ∃ p ∈ r.players, p.id ∈ pw.2 := by
      obtain ⟨p, hp, hpid⟩ := hseat i0 hi0
      exact ⟨p, hp, by rw [hpid]; exact hi0⟩
    obtain ⟨w, hweq, hwin, hwseat⟩ := closestToDealer_ok r.players pw.2 hdealer hw0
    exact ⟨w, hweq, potPayoutSpec_sum pw.1 hnd hseat hwin hwseat⟩

theorem C6_split_pot_payouts_witness :
    (c6Room.split_pot [(7, ({1, 2} : Finset Nat))]).1 =
      .ok [[Winnings.mk 1 4, Winnings.mk 2 3]] := by
  have h := C6_split_pot_payouts c6Room [(7, ({1, 2} : Finset Nat))]
    (by decide) (by decide) (by decide)
  rw [h.1]
  decide

/-! ## C3 — chip conservation: supporting lemmas -/

theorem sum_map_add_nat (l : List α) (f h : α → Nat) :
    (l.map (fun x => f x + h x)).sum = (l.map f).sum + (l.map h).sum := by
  induction l with
  | nil => rfl
  | cons x xs ih =>
    simp only [List.map_cons, List.sum_cons, ih]
    omega

theorem sum_filter_pos_snd (l : List (Nat × Nat)) :
    ((l.filter (fun x => decide (0 < x.2))).map (·.2)).sum = (l.map (·.2)).sum := by
  induction l with
  | nil => rfl
  | cons x xs ih =>
    rw [List.filter_cons]
    by_cases h : 0 < x.2
    · rw [if_pos (decide_eq_true h), List.map_cons, List.sum_cons, ih,
        List.map_cons, List.sum_cons]
    · rw [if_neg (by simpa using h), List.map_cons, List.sum_cons, ih]
      omega

theorem sum_filter_pos_bet (l : List Player) :
    ((l.filter (fun p => decide (0 < p.bet))).map (·.bet)).sum = (l.map (·.bet)).sum := by
  induction l with
  | nil => rfl
  | cons x xs ih =>
    rw [List.filter_cons]
    by_cases h : 0 < x.bet
    · rw [if_pos (decide_eq_true h), List.map_cons, List.sum_cons, ih,
        List.map_cons, List.sum_cons]
    · rw [if_neg (by simpa using h), List.map_cons, List.sum_cons, ih]
      omega

/-- Subtracting a lower bound from every bet and dropping the zeroed
entries removes exactly `c` chips per entry from the layer's total. -/
theorem sum_snd_sub_filter (c : Nat) :
    ∀ {l : List (Nat × Nat)}, (∀ x ∈ l, c ≤ x.2) →
      (((l.map (fun x => (x.1, x.2 - c))).filter (fun x => decide (0 < x.2))).map
        (·.2)).sum + c * l.length = (l.map (·.2)).sum := by
  intro l
  induction l with
  | nil => intro _; rfl
  | cons x xs ih =>
    intro h
    have hx := h x (List.mem_cons_self _ _)
    have ihx := ih (fun y hy => h y (List.mem_cons_of_mem _ hy))
    rw [List.map_cons, List.filter_cons, List.length_cons, Nat.mul_succ]
    by_cases hpos : 0 < x.2 - c
    · rw [if_pos (decide_eq_true hpos), List.map_cons, List.sum_cons,
        List.map_cons, List.sum_cons]
      omega
    · rw [if_neg (by simpa using hpos), List.map_cons, List.sum_cons]
      omega

theorem insertBetDesc_snd_sum (x : Nat × Nat) :
    ∀ l : List (Nat × Nat), ((insertBetDesc x l).map (·.2)).sum = x.2 + (l.map (·.2)).sum := by
  intro l
  induction l with
  | nil => rfl
  | cons y ys ih =>
    unfold insertBetDesc
    by_cases h : y.2 < x.2
    · rw [if_pos h, List.map_cons, List.sum_cons]
    · rw [if_neg h, List.map_cons, List.sum_cons, ih, List.map_cons, List.sum_cons]
      omega

theorem sortBetDesc_snd_sum (l : List (Nat × Nat)) :
    ((sortBetDesc l).map (·.2)).sum = (l.map (·.2)).sum := by
  induction l with
  | nil => rfl
  | cons y ys ih =>
    show ((insertBetDesc y (sortBetDesc ys)).map (·.2)).sum = _
    rw [insertBetDesc_snd_sum, ih, List.map_cons, List.sum_cons]

/-- Layer peeling conserves chips: the peeled pots hold exactly the bets
they were peeled from. -/
theorem potLayersGo_sum :
    ∀ (fuel : Nat) {l : List (Nat × Nat)}, l.Pairwise (fun a b => b.2 ≤ a.2) →
      l.length ≤ fuel →
      ((potLayersGo fuel l).map (·.amount)).sum = (l.map (·.2)).sum := by
  intro fuel
  induction fuel with
  | zero =>
    intro l _ hlen
    have : l = [] := List.length_eq_zero.mp (Nat.le_zero.mp hlen)
    rw [this]
    rfl
  | succ fuel ih =>
    intro l hpair hlen
    cases l with
    | nil => rfl
    | cons b bs =>
      simp only [potLayersGo]
      rw [List.map_cons, List.sum_cons]
      have hle := pairwise_desc_getLast_le (show b :: bs ≠ [] by simp) hpair
      have hstep1 : (potLayerStep b bs).1.amount =
          ((b :: bs).getLast (by simp)).2 * (b :: bs).length := by
        unfold potLayerStep
        dsimp only
        rw [foldl_add_const, Nat.zero_add]
      have hstep2 : (potLayerStep b bs).2 =
          ((b :: bs).map (fun x => (x.1, x.2 - ((b :: bs).getLast (by simp)).2))).filter
            (fun x => decide (0 < x.2)) := rfl
      have hlen2 : (potLayerStep b bs).2.length ≤ fuel :=
        Nat.lt_succ_iff.mp (Nat.lt_of_lt_of_le (potLayerStep_length_lt b bs) hlen)
      have hpair2 : (potLayerStep b bs).2.Pairwise (fun a c => c.2 ≤ a.2) := by
        rw [hstep2]
        exact pairwise_desc_step _ hpair
      rw [ih hpair2 hlen2, hstep2, hstep1]
      have hsub := sum_snd_sub_filter ((b :: bs).getLast (by simp)).2 hle
      rw [Nat.mul_comm] at hsub ⊢
      omega

theorem specMergeGo_sum :
    ∀ (rest : List Pot) (cur : Pot),
      ((specMergeGo cur rest).map (·.amount)).sum =
        cur.amount + (rest.map (·.amount)).sum := by
  intro rest
  induction rest with
  | nil => intro cur; simp [specMergeGo]
  | cons q rest ih =>
    intro cur
    unfold specMergeGo
    by_cases hc : cur.players = q.players
    · rw [if_pos hc, ih]
      dsimp only
      rw [List.map_cons, List.sum_cons]
      omega
    · rw [if_neg hc, List.map_cons, List.sum_cons, ih, List.map_cons, List.sum_cons]

/-- `end_stage` conserves chips unconditionally: the peeled layers hold
exactly the cleared bets, and on the error path nothing changes. -/
theorem end_stage_chipSum (r : Room) : chipSum (r.end_stage).2 = chipSum r := by
  unfold Room.end_stage
  cases hs : r.stage
  case notEnoughPlayers => rfl
  case showdown b => rfl
  all_goals (
    dsimp only
    cases hp : r.pots ++ potLayers (sortBetDesc
        ((r.players.filter (fun p => decide (0 < p.bet))).map (fun p => (p.id, p.bet)))) with
    | nil => rfl
    | cons first restPots =>
      (dsimp only
       have hm := foldl_merge_eq_specMergeGo restPots [] first
       simp only [List.nil_append] at hm
       rw [hm]
       unfold chipSum
       dsimp only
       have hplayers : ((r.players.map (fun p =>
           { p with has_taken_turn := false, bet := 0, last_action := none })).map
             (fun p => p.chips + p.bet)).sum = (r.players.map (fun p => p.chips)).sum := by
         rw [List.map_map]
         exact congrArg List.sum (List.map_congr_left (fun p _ => Nat.add_zero p.chips))
       have hpots : ((specMergeGo first restPots).map (·.amount)).sum =
           (r.pots.map (·.amount)).sum + ((sortBetDesc
             ((r.players.filter (fun p => decide (0 < p.bet))).map
               (fun p => (p.id, p.bet)))).map (·.2)).sum := by
         rw [specMergeGo_sum]
         have : first.amount + (restPots.map (·.amount)).sum =
             ((first :: restPots).map (·.amount)).sum := by
           rw [List.map_cons, List.sum_cons]
         rw [this, ← hp, List.map_append, List.sum_append]
         have hlay : ((potLayers (sortBetDesc
             ((r.players.filter (fun p => decide (0 < p.bet))).map
               (fun p => (p.id, p.bet))))).map (·.amount)).sum =
             ((sortBetDesc ((r.players.filter (fun p => decide (0 < p.bet))).map
               (fun p => (p.id, p.bet)))).map (·.2)).sum := by
           unfold potLayers
           exact potLayersGo_sum _ (pairwise_sortBetDesc _) (Nat.le_refl _)
         rw [hlay]
       have hbets : ((sortBetDesc ((r.players.filter (fun p => decide (0 < p.bet))).map
           (fun p => (p.id, p.bet)))).map (·.2)).sum =
           (r.players.map (·.bet)).sum := by
         rw [sortBetDesc_snd_sum, List.map_map]
         have hcomp : ((fun x : Nat × Nat => x.2) ∘ fun p : Player => (p.id, p.bet)) =
             fun p : Player => p.bet := rfl
         rw [hcomp]
         exact sum_filter_pos_bet _
       have hsplit := sum_map_add_nat r.players (fun p => p.chips) (fun p => p.bet)
       rw [hplayers, hpots, hbets]
       omega))

theorem end_stage_stage (r : Room) : (r.end_stage).2.stage = r.stage := by
  unfold Room.end_stage
  cases hs : r.stage
  case notEnoughPlayers => exact hs
  case showdown b => exact hs
  all_goals (
    dsimp only
    cases r.pots ++ potLayers (sortBetDesc
        ((r.players.filter (fun p => decide (0 < p.bet))).map (fun p => (p.id, p.bet)))) with
    | nil => exact hs
    | cons first restPots => rfl)

/-- Dealing community cards never touches chips, bets or pots. -/
theorem deal_chipSum (g : Nat → Nat) (k : Nat) (st : Stage) (r : Room) :
    chipSum (r.deal_community_card g k st).2.1 = chipSum r := by
  unfold Room.deal_community_card
  cases st <;> dsimp only <;> (repeat' split) <;> rfl

/-- `setup_stage` conserves chips on every stage except PreFlop (which
restarts the hand) and NotEnoughPlayers (which resets the table). -/
theorem setup_stage_chipSum (g : Nat → Nat) (k : Nat) (r : Room)
    (h1 : r.stage ≠ .preFlop) (h2 : r.stage ≠ .notEnoughPlayers) :
    chipSum (r.setup_stage g k).2.1 = chipSum r := by
  unfold Room.setup_stage
  cases hs : r.stage
  case notEnoughPlayers => exact absurd hs h2
  case preFlop => exact absurd hs h1
  case flop =>
    dsimp only
    rcases hA : r.deal_community_card g k .flop with ⟨resA, rA, kA⟩
    have hcA : chipSum rA = chipSum r := by
      have h := deal_chipSum g k .flop r
      rw [hA] at h
      exact h
    cases resA with
    | error e => exact hcA
    | ok u =>
      dsimp only
      cases rA.player_to_act_first with
      | error e => exact hcA
      | ok pid => exact hcA
  case turn =>
    dsimp only
    rcases hA : r.deal_community_card g k .turn with ⟨resA, rA, kA⟩
    have hcA : chipSum rA = chipSum r := by
      have h := deal_chipSum g k .turn r
      rw [hA] at h
      exact h
    cases resA with
    | error e => exact hcA
    | ok u =>
      dsimp only
      cases rA.player_to_act_first with
      | error e => exact hcA
      | ok pid => exact hcA
  case river =>
    dsimp only
    rcases hA : r.deal_community_card g k .river with ⟨resA, rA, kA⟩
    have hcA : chipSum rA = chipSum r := by
      have h := deal_chipSum g k .river r
      rw [hA] at h
      exact h
    cases resA with
    | error e => exact hcA
    | ok u =>
      dsimp only
      cases rA.player_to_act_first with
      | error e => exact hcA
      | ok pid => exact hcA
  case showdown b =>
    cases b with
    | false => rfl
    | true =>
      dsimp only
      split
      · rename_i e r1 k1 heq
        show chipSum r1 = chipSum r
        split at heq
        · rcases hA : r.deal_community_card g k Stage.flop with ⟨resA, rA, kA⟩
          rw [hA] at heq
          have hcA : chipSum rA = chipSum r := by
            have h := deal_chipSum g k Stage.flop r
            rw [hA] at h
            exact h
          cases resA with
          | error eA =>
            dsimp only at heq
            simp only [Prod.mk.injEq] at heq
            rw [← heq.2.1]
            exact hcA
          | ok uA =>
            dsimp only at heq
            rcases hB : rA.deal_community_card g kA Stage.turn with ⟨resB, rB, kB⟩
            rw [hB] at heq
            have hcB : chipSum rB = chipSum rA := by
              have h := deal_chipSum g kA Stage.turn rA
              rw [hB] at h
              exact h
            cases resB with
            | error eB =>
              dsimp only at heq
              simp only [Prod.mk.injEq] at heq
              rw [← heq.2.1]
              exact hcB.trans hcA
            | ok uB =>
              dsimp only at heq
              have h := deal_chipSum g kB Stage.river rB
              rw [heq] at h
              exact h.trans (hcB.trans hcA)
        · rcases hA : r.deal_community_card g k Stage.turn with ⟨resA, rA, kA⟩
          rw [hA] at heq
          have hcA : chipSum rA = chipSum r := by
            have h := deal_chipSum g k Stage.turn r
            rw [hA] at h
            exact h
          cases resA with
          | error eA =>
            dsimp only at heq
            simp only [Prod.mk.injEq] at heq
            rw [← heq.2.1]
            exact hcA
          | ok uA =>
            dsimp only at heq
            have h := deal_chipSum g kA Stage.river rA
            rw [heq] at h
            exact h.trans hcA
        · have h := deal_chipSum g k Stage.river r
          rw [heq] at h
          exact h
        · simp at heq
        · simp only [Prod.mk.injEq] at heq
          rw [← heq.2.1]
      · rename_i u r1 k1 heq
        show chipSum r1 = chipSum r
        split at heq
        · rcases hA : r.deal_community_card g k Stage.flop with ⟨resA, rA, kA⟩
          rw [hA] at heq
          have hcA : chipSum rA = chipSum r := by
            have h := deal_chipSum g k Stage.flop r
            rw [hA] at h
            exact h
          cases resA with
          | error eA => simp at heq
          | ok uA =>
            dsimp only at heq
            rcases hB : rA.deal_community_card g kA Stage.turn with ⟨resB, rB, kB⟩
            rw [hB] at heq
            have hcB : chipSum rB = chipSum rA := by
              have h := deal_chipSum g kA Stage.turn rA
              rw [hB] at h
              exact h
            cases resB with
            | error eB => simp at heq
            | ok uB =>
              dsimp only at heq
              have h := deal_chipSum g kB Stage.river rB
              rw [heq] at h
              exact h.trans (hcB.trans hcA)
        · rcases hA : r.deal_community_card g k Stage.turn with ⟨resA, rA, kA⟩
          rw [hA] at heq
          have hcA : chipSum rA = chipSum r := by
            have h := deal_chipSum g k Stage.turn r
            rw [hA] at h
            exact h
          cases resA with
          | error eA => simp at heq
          | ok uA =>
            dsimp only at heq
            have h := deal_chipSum g kA Stage.river rA
            rw [heq] at h
            exact h.trans hcA
        · have h := deal_chipSum g k Stage.river r
          rw [heq] at h
          exact h
        · simp only [Prod.mk.injEq] at heq
          rw [← heq.2.1]
        · simp at heq

/-- On a betting stage `proceed_to_next_stage` conserves chips, and on
success it never lands on PreFlop or NotEnoughPlayers. -/
theorem proceed_to_next_stage_chipSum (r : Room) (pt : ProceedType)
    (hstage : r.stage = .preFlop ∨ r.stage = .flop ∨ r.stage = .turn ∨ r.stage = .river) :
    chipSum (r.proceed_to_next_stage pt).2 = chipSum r ∧
      ((r.proceed_to_next_stage pt).1 = .ok () →
        (r.proceed_to_next_stage pt).2.stage ≠ .preFlop ∧
        (r.proceed_to_next_stage pt).2.stage ≠ .notEnoughPlayers) := by
  unfold Room.proceed_to_next_stage
  rcases hE : r.end_stage with ⟨eres, r1⟩
  have hc1 : chipSum r1 = chipSum r := by
    have h := end_stage_chipSum r
    rw [hE] at h
    exact h
  have hs1 : r1.stage = r.stage := by
    have h := end_stage_stage r
    rw [hE] at h
    exact h
  cases eres with
  | error e => exact ⟨hc1, fun h => by simp at h⟩
  | ok u =>
    dsimp only
    cases pt with
    | noAction => exact ⟨hc1, fun h => by simp at h⟩
    | showdownWithoutDealing => exact ⟨hc1, fun _ => ⟨(fun h => nomatch h), (fun h => nomatch h)⟩⟩
    | showdownWithDealing => exact ⟨hc1, fun _ => ⟨(fun h => nomatch h), (fun h => nomatch h)⟩⟩
    | normal =>
      rw [hs1]
      rcases hstage with h | h | h | h <;> rw [h] <;> dsimp only <;>
        exact ⟨hc1, fun _ => ⟨(fun h => nomatch h), (fun h => nomatch h)⟩⟩

/-- On a betting stage `proceed` conserves chips on every path. -/
theorem proceed_chipSum (g : Nat → Nat) (k : Nat) (r : Room)
    (hstage : r.stage = .preFlop ∨ r.stage = .flop ∨ r.stage = .turn ∨ r.stage = .river) :
    chipSum (r.proceed g k).2.1 = chipSum r := by
  unfold Room.proceed
  cases hcp : r.can_proceed_to_next_stage with
  | none => rfl
  | some pt =>
    dsimp only
    by_cases hc : pt.can_proceed = true
    · rw [if_pos hc]
      rcases hP : r.proceed_to_next_stage pt with ⟨pres, r1⟩
      have hfacts := proceed_to_next_stage_chipSum r pt hstage
      rw [hP] at hfacts
      cases pres with
      | error e => exact hfacts.1
      | ok u =>
        dsimp only
        have hne := hfacts.2 rfl
        exact (setup_stage_chipSum g k r1 hne.1 hne.2).trans hfacts.1
    · rw [if_neg hc]
      by_cases hnep : r.stage = .notEnoughPlayers
      · rcases hstage with h | h | h | h <;> rw [h] at hnep <;> exact absurd hnep (by decide)
      · rw [if_neg hnep]
        cases r.players.findIdx? (fun p => r.player_in_turn == some p.id) with
        | none => rfl
        | some idx =>
          dsimp only
          cases r.next_player_after idx with
          | error e => rfl
          | ok nid => rfl

/-- Replacing the first match of `q` (the player `find?` returned) by a
fixed value shifts a mapped sum by exactly the difference. -/
theorem sum_updateFirst (q : Player → Bool) (v : Player) (m : Player → Nat) :
    ∀ {l : List Player} {p : Player}, l.find? q = some p →
      ((updateFirst q (fun _ => v) l).map m).sum + m p = (l.map m).sum + m v := by
  intro l
  induction l with
  | nil => intro p hf; simp at hf
  | cons x xs ih =>
    intro p hf
    unfold updateFirst
    by_cases hq : q x = true
    · rw [List.find?_cons_of_pos _ hq] at hf
      injection hf with hf
      rw [if_pos hq, List.map_cons, List.sum_cons, List.map_cons, List.sum_cons, ← hf]
      omega
    · rw [List.find?_cons_of_neg _ hq] at hf
      rw [if_neg hq, List.map_cons, List.sum_cons, List.map_cons, List.sum_cons]
      have h := ih hf
      omega

/-- Swapping the found player for one holding the same chips + bet total
conserves `chipSum`. -/
theorem chipSum_update (r : Room) {p : Player} (q : Player → Bool) (v : Player)
    (hf : r.players.find? q = some p) (hm : v.chips + v.bet = p.chips + p.bet) :
    chipSum { r with players := updateFirst q (fun _ => v) r.players } = chipSum r := by
  unfold chipSum
  dsimp only
  have h := sum_updateFirst q v (fun p => p.chips + p.bet) hf
  dsimp only at h
  omega

/-- Replacing the found player by one with the same chips + bet total and
then proceeding conserves chips on a betting stage. -/
theorem update_proceed_chipSum (g : Nat → Nat) (k : Nat) (r : Room) {p : Player}
    (q : Player → Bool) (v : Player)
    (hf : r.players.find? q = some p) (hm : v.chips + v.bet = p.chips + p.bet)
    (hstage : r.stage = .preFlop ∨ r.stage = .flop ∨ r.stage = .turn ∨ r.stage = .river) :
    chipSum (({ r with players := updateFirst q (fun _ => v) r.players }).proceed g k).2.1 =
      chipSum r :=
  Eq.trans
    (proceed_chipSum g k { r with players := updateFirst q (fun _ => v) r.players }
      (by exact hstage))
    (chipSum_update r q v hf hm)

/-- C3(a): on a betting stage `take_action` conserves chips on every
path, successful or not. -/
theorem take_action_chipSum (g : Nat → Nat) (k : Nat) (r : Room) (pid : Nat) (a : Action)
    (hstage : r.stage = .preFlop ∨ r.stage = .flop ∨ r.stage = .turn ∨ r.stage = .river) :
    chipSum (r.take_action g k pid a).2.1 = chipSum r := by
  unfold Room.take_action
  by_cases ht : r.player_in_turn ≠ some pid
  · rw [if_pos ht]
  · rw [if_neg ht]
    dsimp only
    cases hf : r.players.find? (fun p => p.id == pid) with
    | none => rfl
    | some player =>
      dsimp only
      cases a with
      | fold =>
        dsimp only
        exact update_proceed_chipSum g k r _ _ hf rfl hstage
      | check =>
        dsimp only
        by_cases hlt : ({ player with last_action := some Action.check } : Player).bet <
            r.non_folded_max_bet
        · rw [if_pos hlt]
          exact chipSum_update r _ _ hf rfl
        · rw [if_neg hlt]
          exact update_proceed_chipSum g k r _ _ hf rfl hstage
      | call =>
        dsimp only
        simp only [Player.bet_amount]
        by_cases hle : r.non_folded_max_bet -
            ({ player with last_action := some Action.call } : Player).bet ≤
            ({ player with last_action := some Action.call } : Player).chips
        · rw [if_pos hle]
          refine update_proceed_chipSum g k r _ _ hf ?_ hstage
          dsimp only at hle ⊢
          omega
        · rw [if_neg hle]
          exact chipSum_update r _ _ hf rfl
      | raise amount =>
        dsimp only
        by_cases hlow : amount + ({ player with last_action := some (Action.raise amount) } :
            Player).bet < r.non_folded_max_bet
        · rw [if_pos hlow]
          exact chipSum_update r _ _ hf rfl
        · rw [if_neg hlow]
          simp only [Player.bet_amount]
          by_cases hle : amount ≤
              ({ player with last_action := some (Action.raise amount) } : Player).chips
          · rw [if_pos hle]
            refine update_proceed_chipSum g k r _ _ hf ?_ hstage
            dsimp only at hle ⊢
            omega
          · rw [if_neg hle]
            exact chipSum_update r _ _ hf rfl
      | allIn =>
        dsimp only
        simp only [Player.bet_amount]
        rw [if_pos (Nat.le_refl _)]
        refine update_proceed_chipSum g k r _ _ hf ?_ hstage
        dsimp only
        omega

/-- With no duplicate seat ids, summing each player's filtered share of a
payout list recovers the whole list's total. -/
theorem sum_filter_partition :
    ∀ (W : List Winnings) (base : List Player), (base.map (·.id)).Nodup →
      (∀ w ∈ W, w.player ∈ base.map (·.id)) →
      (base.map (fun p => ((W.filter (fun x => x.player == p.id)).map (·.amount)).sum)).sum =
        (W.map (·.amount)).sum := by
  intro W
  induction W with
  | nil =>
    intro base _ _
    simp
  | cons w ws ih =>
    intro base hnd hW
    have hpt : ∀ p ∈ base,
        (((w :: ws).filter (fun x => x.player == p.id)).map (·.amount)).sum =
          (if p.id = w.player then w.amount else 0) +
            ((ws.filter (fun x => x.player == p.id)).map (·.amount)).sum := by
      intro p _
      rw [List.filter_cons]
      by_cases h : p.id = w.player
      · rw [if_pos (by simp [h]), if_pos h, List.map_cons, List.sum_cons]
      · rw [if_neg (by simp only [beq_iff_eq]; exact fun heq => h heq.symm), if_neg h,
          Nat.zero_add]
    rw [List.map_congr_left hpt]
    rw [sum_map_add_nat base (fun p => if p.id = w.player then w.amount else 0)
      (fun p => ((ws.filter (fun x => x.player == p.id)).map (·.amount)).sum)]
    rw [ih base hnd (fun x hx => hW x (List.mem_cons_of_mem _ hx))]
    have hone : (base.map (fun p => if p.id = w.player then w.amount else 0)).sum =
        w.amount := by
      have hmap : base.map (fun p => if p.id = w.player then w.amount else 0) =
          (base.map (·.id)).map (fun i => if i = w.player then w.amount else 0) := by
        rw [List.map_map]
        rfl
      rw [hmap]
      exact sum_if_unique w.amount w.player hnd (hW w (List.mem_cons_self _ _))
    rw [hone, List.map_cons, List.sum_cons]

/-- The total credited across all seats by `split_pot`'s payout lists is
the total of the pot amounts. -/
theorem wonIn_potPayouts_sum {base : List Player}
    (hnd : (base.map (·.id)).Nodup)
    (hdealer : ∃ p ∈ base, (p.position == Position.dealer ||
      p.position == Position.dealerAndSmallBlind) = true) :
    ∀ (winners : List (Nat × Finset Nat)),
      (∀ pw ∈ winners, pw.2.Nonempty ∧ ∀ i ∈ pw.2, ∃ p ∈ base, p.id = i) →
      (base.map (fun p => wonIn (potPayouts base winners) p.id)).sum =
        (winners.map (·.1)).sum := by
  intro winners
  induction winners with
  | nil =>
    intro _
    simp [potPayouts, wonIn]
  | cons pw rest ih =>
    intro hW
    obtain ⟨hne, hseat⟩ := hW pw (List.mem_cons_self _ _)
    obtain ⟨i0, hi0⟩ := hne
    have hw0 : ∃ p ∈ base, p.id ∈ pw.2 := by
      obtain ⟨p, hp, hpid⟩ := hseat i0 hi0
      exact ⟨p, hp, by rw [hpid]; exact hi0⟩
    obtain ⟨w, hweq, hwin, hwseat⟩ := closestToDealer_ok base pw.2 hdealer hw0
    have hcons : potPayouts base (pw :: rest) =
        (match closestToDealer base pw.2 with
         | .ok w => potPayoutSpec base pw.1 pw.2 w
         | .error _ => ([] : List Winnings)) :: potPayouts base rest := rfl
    rw [hcons, hweq]
    dsimp only
    have hpt : ∀ p ∈ base,
        wonIn (potPayoutSpec base pw.1 pw.2 w :: potPayouts base rest) p.id =
          (((potPayoutSpec base pw.1 pw.2 w).filter
            (fun x => x.player == p.id)).map (·.amount)).sum +
            wonIn (potPayouts base rest) p.id :=
      fun p _ => wonIn_cons _ _ _
    rw [List.map_congr_left hpt]
    rw [sum_map_add_nat base
      (fun p => (((potPayoutSpec base pw.1 pw.2 w).filter
        (fun x => x.player == p.id)).map (·.amount)).sum)
      (fun p => wonIn (potPayouts base rest) p.id)]
    rw [ih (fun pw2 h2 => hW pw2 (List.mem_cons_of_mem _ h2))]
    have hplayers : ∀ x ∈ potPayoutSpec base pw.1 pw.2 w, x.player ∈ base.map (·.id) := by
      intro x hx
      unfold potPayoutSpec at hx
      rw [List.mem_map] at hx
      obtain ⟨p, hp, hpx⟩ := hx
      rw [← hpx]
      exact List.mem_map_of_mem _ (List.mem_filter.mp hp).1
    have hhead := sum_filter_partition (potPayoutSpec base pw.1 pw.2 w) base hnd hplayers
    rw [hhead, potPayoutSpec_sum pw.1 hnd hseat hwin hwseat, List.map_cons, List.sum_cons]

/-- C3(c): `split_pot` does not clear the pots it pays out, so every
successful call increases the conserved quantity by the total paid. -/
theorem split_pot_chipSum (r : Room) (winners : List (Nat × Finset Nat))
    (hnd : (r.players.map (·.id)).Nodup)
    (hdealer : ∃ p ∈ r.players, (p.position == Position.dealer ||
      p.position == Position.dealerAndSmallBlind) = true)
    (hW : ∀ pw ∈ winners, pw.2.Nonempty ∧ ∀ i ∈ pw.2, ∃ p ∈ r.players, p.id = i) :
    chipSum (r.split_pot winners).2 = chipSum r + (winners.map (·.1)).sum := by
  have h0 := splitPotGo_spec hnd hdealer winners (fun _ => 0) hW
  rw [addChips_zero] at h0
  have hg : addChips (fun i => 0 + wonIn (potPayouts r.players winners) i) r.players =
      addChips (wonIn (potPayouts r.players winners)) r.players :=
    addChips_congr (fun p _ => Nat.zero_add _)
  rw [hg] at h0
  unfold Room.split_pot
  rw [h0]
  dsimp only
  unfold chipSum
  dsimp only
  have hps : ((addChips (wonIn (potPayouts r.players winners)) r.players).map
      (fun p => p.chips + p.bet)).sum =
      (r.players.map (fun p => p.chips + p.bet)).sum +
        (r.players.map (fun p => wonIn (potPayouts r.players winners) p.id)).sum := by
    unfold addChips
    rw [List.map_map]
    have hcongr : ((fun p : Player => p.chips + p.bet) ∘ fun p : Player =>
        { p with chips := p.chips + wonIn (potPayouts r.players winners) p.id }) =
        fun p : Player => (p.chips + p.bet) + wonIn (potPayouts r.players winners) p.id := by
      funext p
      dsimp only [Function.comp]
      omega
    rw [hcongr, sum_map_add_nat r.players (fun p => p.chips + p.bet)
      (fun p => wonIn (potPayouts r.players winners) p.id)]
  rw [hps, wonIn_potPayouts_sum hnd hdealer winners hW]
  omega

/-- C3 counterexample: `split_pot` pays the pot to the winner but leaves
the pot list untouched, so the conserved quantity (chips + bets + pots)
grows from 2 to 4 — the claimed invariance across Showdown exit fails. -/
theorem C3_cex_split_pot_inflates :
    (c3Room.split_pot [(2, ({1} : Finset Nat))]).1 = .ok [[Winnings.mk 1 2]] ∧
    chipSum c3Room = 2 ∧
    chipSum (c3Room.split_pot [(2, ({1} : Finset Nat))]).2 = 4 := by decide

/-- C3, amended: on betting stages `take_action` conserves the quantity
(sum of chips + bet over seats) + (sum of pot amounts); `end_stage`
always conserves it; but `split_pot` — whose winner sets are non-empty
and seated, with a dealer present — increases it by exactly the total of
the pot amounts paid out, because the pots are not cleared. -/
theorem C3_chip_conservation_ops :
    (∀ (g : Nat → Nat) (k : Nat) (r : Room) (pid : Nat) (a : Action),
        r.stage = .preFlop ∨ r.stage = .flop ∨ r.stage = .turn ∨ r.stage = .river →
        chipSum (r.take_action g k pid a).2.1 = chipSum r) ∧
    (∀ r : Room, chipSum (r.end_stage).2 = chipSum r) ∧
    (∀ (r : Room) (winners : List (Nat × Finset Nat)),
        (r.players.map (·.id)).Nodup →
        (∃ p ∈ r.players, (p.position == Position.dealer ||
          p.position == Position.dealerAndSmallBlind) = true) →
        (∀ pw ∈ winners, pw.2.Nonempty ∧ ∀ i ∈ pw.2, ∃ p ∈ r.players, p.id = i) →
        chipSum (r.split_pot winners).2 = chipSum r + (winners.map (·.1)).sum) :=
  ⟨fun g k r pid a h => take_action_chipSum g k r pid a h,
   end_stage_chipSum,
   fun r winners hnd hd hW => split_pot_chipSum r winners hnd hd hW⟩

theorem C3_chip_conservation_ops_witness :
    chipSum (headsUpPreFlop.take_action oracle0 0 1 Action.call).2.1 =
      chipSum headsUpPreFlop ∧
    chipSum (c3Room.split_pot [(2, ({1} : Finset Nat))]).2 =
      chipSum c3Room + ([(2, ({1} : Finset Nat))].map (·.1)).sum := by
  constructor
  · exact C3_chip_conservation_ops.1 oracle0 0 headsUpPreFlop 1 Action.call (Or.inl rfl)
  · exact C3_chip_conservation_ops.2.2 c3Room [(2, ({1} : Finset Nat))]
      (by decide) (by decide) (by decide)

/-- C2 counterexample: a successful two-player setup reaches PreFlop with
player 1 in turn; player 1 then leaves, and the room keeps
`player_in_turn = some 1` in a betting stage while seat 1 is now marked
folded and disconnected — refuting the claimed "non-folded" guarantee. -/
theorem C2_cex_leave_folded_in_turn :
    c2Join1.1 = .ok .noAction ∧ c2Join2.1 = .ok .playerReceiveCards ∧
    c2Left.2.stage = .preFlop ∧ c2Left.2.player_in_turn = some 1 ∧
    c2Left.2.players.map (fun p => (p.id, p.has_folded, p.is_connected)) =
      [(1, true, false), (2, false, true)] := by decide

/-! ## C2 — the player-in-turn invariant -/

theorem turnInv_of_strong {r : Room} (hs : r.stage.is_betting = true)
    (h : ∃ pid, r.player_in_turn = some pid ∧ ∃ p ∈ r.players, p.id = pid ∧
      p.has_folded = false ∧ 0 < p.chips) : turnInv r := by
  obtain ⟨pid, hit, p, hp, hpid, hf, hc⟩ := h
  constructor
  · rw [hit, hs]
    simp
  · rw [hit]
    exact ⟨p, hp, hpid, Or.inl ⟨hf, hc⟩⟩

theorem turnInv_none {r : Room} (hn : r.player_in_turn = none)
    (hs : r.stage.is_betting = false) : turnInv r := by
  constructor
  · rw [hn, hs]
    simp
  · rw [hn]
    trivial

theorem turnInv_new (i : Nat) : turnInv (Room.new i) :=
  turnInv_none rfl rfl

/-- A successful `next_player_after` names a seated, non-folded,
chip-bearing player. -/
theorem next_player_after_ok {r : Room} {i pid : Nat}
    (h : r.next_player_after i = .ok pid) :
    ∃ p ∈ r.players, p.id = pid ∧ p.has_folded = false ∧ 0 < p.chips := by
  unfold Room.next_player_after at h
  dsimp only at h
  split at h
  · simp at h
  · rename_i idx hfind
    split at h
    · rename_i p hget
      injection h with h
      have hpred := List.find?_some hfind
      rw [hget] at hpred
      dsimp only at hpred
      simp only [Bool.and_eq_true, Bool.not_eq_true', decide_eq_true_eq] at hpred
      exact ⟨p, List.get?_mem hget, h, hpred.1, hpred.2⟩
    · simp at h

/-- A successful `player_to_act_first` names a seated, non-folded,
chip-bearing player. -/
theorem player_to_act_first_ok {r : Room} {pid : Nat}
    (h : r.player_to_act_first = .ok pid) :
    ∃ p ∈ r.players, p.id = pid ∧ p.has_folded = false ∧ 0 < p.chips := by
  unfold Room.player_to_act_first at h
  split at h
  · simp at h
  · split at h
    · simp at h
    · exact next_player_after_ok h
  · split at h
    · simp at h
    · exact next_player_after_ok h

/-- A successful `start_game` keeps the stage and hands the turn to a
seated, non-folded, chip-bearing player. -/
theorem start_game_ok {g : Nat → Nat} {k : Nat} {r : Room} {u : Unit} {r1 : Room} {k1 : Nat}
    (h : r.start_game g k = (.ok u, r1, k1)) :
    r1.stage = r.stage ∧
    ∃ pid, r1.player_in_turn = some pid ∧ ∃ p ∈ r1.players, p.id = pid ∧
      p.has_folded = false ∧ 0 < p.chips := by
  unfold Room.start_game at h
  dsimp only at h
  split at h
  · simp at h
  · split at h
    · simp at h
    · split at h
      · simp at h
      · split at h
        · simp at h
        · split at h
          · simp at h
          · rename_i pid hpf
            simp only [Prod.mk.injEq] at h
            obtain ⟨h1, h2, h3⟩ := h
            subst h2
            exact ⟨rfl, pid, rfl, player_to_act_first_ok hpf⟩

/-- Dealing community cards touches only the deck and the board. -/
theorem deal_frame (g : Nat → Nat) (k : Nat) (st : Stage) (r : Room) :
    (r.deal_community_card g k st).2.1.players = r.players ∧
    (r.deal_community_card g k st).2.1.player_in_turn = r.player_in_turn ∧
    (r.deal_community_card g k st).2.1.stage = r.stage := by
  unfold Room.deal_community_card
  cases st <;> dsimp only <;> (repeat' split) <;> exact ⟨rfl, rfl, rfl⟩

/-- Every successful `setup_stage` establishes the turn invariant,
whatever room it starts from. -/
theorem setup_stage_inv (g : Nat → Nat) (k : Nat) {r : Room}
    {e : ServiceRequiredAction} {r1 : Room} {k1 : Nat}
    (h : r.setup_stage g k = (.ok e, r1, k1)) : turnInv r1 := by
  unfold Room.setup_stage at h
  cases hs : r.stage
  case notEnoughPlayers =>
    rw [hs] at h
    dsimp only at h
    simp only [Prod.mk.injEq] at h
    obtain ⟨he, hr1, hk⟩ := h
    subst hr1
    exact turnInv_none rfl
      (by show r.stage.is_betting = false; rw [hs]; rfl)
  case preFlop =>
    rw [hs] at h
    dsimp only at h
    split at h
    · simp at h
    · rename_i uA rA kA hsg
      simp only [Prod.mk.injEq] at h
      obtain ⟨he, hr1, hk⟩ := h
      subst hr1
      obtain ⟨hstg, pid, hit, hval⟩ := start_game_ok hsg
      apply turnInv_of_strong
      · show rA.stage.is_betting = true
        rw [hstg, hs]
        rfl
      · exact ⟨pid, hit, hval⟩
  case flop =>
    rw [hs] at h
    dsimp only at h
    split at h
    · simp at h
    · rename_i uA rA kA hdl
      split at h
      · simp at h
      · rename_i pid hpf
        simp only [Prod.mk.injEq] at h
        obtain ⟨he, hr1, hk⟩ := h
        subst hr1
        have hfr := deal_frame g k Stage.flop r
        rw [hdl] at hfr
        apply turnInv_of_strong
        · show rA.stage.is_betting = true
          rw [hfr.2.2, hs]
          rfl
        · exact ⟨pid, rfl, player_to_act_first_ok hpf⟩
  case turn =>
    rw [hs] at h
    dsimp only at h
    split at h
    · simp at h
    · rename_i uA rA kA hdl
      split at h
      · simp at h
      · rename_i pid hpf
        simp only [Prod.mk.injEq] at h
        obtain ⟨he, hr1, hk⟩ := h
        subst hr1
        have hfr := deal_frame g k Stage.turn r
        rw [hdl] at hfr
        apply turnInv_of_strong
        · show rA.stage.is_betting = true
          rw [hfr.2.2, hs]
          rfl
        · exact ⟨pid, rfl, player_to_act_first_ok hpf⟩
  case river =>
    rw [hs] at h
    dsimp only at h
    split at h
    · simp at h
    · rename_i uA rA kA hdl
      split at h
      · simp at h
      · rename_i pid hpf
        simp only [Prod.mk.injEq] at h
        obtain ⟨he, hr1, hk⟩ := h
        subst hr1
        have hfr := deal_frame g k Stage.river r
        rw [hdl] at hfr
        apply turnInv_of_strong
        · show rA.stage.is_betting = true
          rw [hfr.2.2, hs]
          rfl
        · exact ⟨pid, rfl, player_to_act_first_ok hpf⟩
  case showdown b =>
    cases b with
    | false =>
      rw [hs] at h
      dsimp only at h
      simp only [Prod.mk.injEq] at h
      obtain ⟨he, hr1, hk⟩ := h
      subst hr1
      exact turnInv_none rfl rfl
    | true =>
      rw [hs] at h
      dsimp only at h
      split at h
      · simp at h
      · rename_i uA rA kA heq
        simp only [Prod.mk.injEq] at h
        obtain ⟨he, hr1, hk⟩ := h
        subst hr1
        have hstg : rA.stage = r.stage := by
          split at heq
          · split at heq
            · simp at heq
            · rename_i u1 rB kB hd1
              split at heq
              · simp at heq
              · rename_i u2 rC kC hd2
                have f1 := deal_frame g k Stage.flop r
                rw [hd1] at f1
                have f2 := deal_frame g kB Stage.turn rB
                rw [hd2] at f2
                have f3 := deal_frame g kC Stage.river rC
                rw [heq] at f3
                exact f3.2.2.trans (f2.2.2.trans f1.2.2)
          · split at heq
            · simp at heq
            · rename_i u1 rB kB hd1
              have f1 := deal_frame g k Stage.turn r
              rw [hd1] at f1
              have f2 := deal_frame g kB Stage.river rB
              rw [heq] at f2
              exact f2.2.2.trans f1.2.2
          · have f := deal_frame g k Stage.river r
            rw [heq] at f
            exact f.2.2
          · simp only [Prod.mk.injEq] at heq
            rw [heq.2.1]
          · simp at heq
        exact turnInv_none rfl
          (by show rA.stage.is_betting = false; rw [hstg, hs]; rfl)

/-- A successful `proceed` establishes the invariant, provided the room
satisfied it in case the stage was (and stays) NotEnoughPlayers. -/
theorem proceed_inv (g : Nat → Nat) (k : Nat) {r : Room}
    {e : ServiceRequiredAction} {r1 : Room} {k1 : Nat}
    (hpre : r.stage = .notEnoughPlayers → turnInv r)
    (h : r.proceed g k = (.ok e, r1, k1)) : turnInv r1 := by
  unfold Room.proceed at h
  split at h
  · simp at h
  · rename_i pt hcp
    try dsimp only at h
    split at h
    · rename_i hc
      split at h
      · simp at h
      · exact setup_stage_inv g k h
    · rename_i hc
      split at h
      · rename_i hnep
        simp only [Prod.mk.injEq] at h
        obtain ⟨he, hr1, hk⟩ := h
        subst hr1
        exact hpre hnep
      · rename_i hnep
        split at h
        · simp at h
        · rename_i idx hidx
          split at h
          · simp at h
          · rename_i nid hnext
            simp only [Prod.mk.injEq] at h
            obtain ⟨he, hr1, hk⟩ := h
            subst hr1
            apply turnInv_of_strong
            · show r.stage.is_betting = true
              cases hstg : r.stage
              case notEnoughPlayers => exact absurd hstg hnep
              case showdown b =>
                unfold Room.can_proceed_to_next_stage at hcp
                rw [hstg] at hcp
                dsimp only at hcp
                injection hcp with hcp
                rw [← hcp] at hc
                exact absurd rfl hc
              all_goals rfl
            · exact ⟨nid, rfl, next_player_after_ok hnext⟩

/-- `proceed` as a public operation preserves the invariant. -/
theorem proceed_pub_inv (g : Nat → Nat) (k : Nat) {r : Room} {e : ServiceRequiredAction}
    (hInv : turnInv r) (h : (r.proceed g k).1 = .ok e) :
    turnInv (r.proceed g k).2.1 := by
  rcases hE : r.proceed g k with ⟨res, r1, k1⟩
  rw [hE] at h
  dsimp only at h ⊢
  subst h
  exact proceed_inv g k (fun _ => hInv) hE

/-- A successful `join_player` preserves the invariant. -/
theorem join_inv (g : Nat → Nat) (k : Nat) (p : Player) {r : Room}
    {e : ServiceRequiredAction} (hInv : turnInv r)
    (h : (r.join_player g k p).1 = .ok e) :
    turnInv (r.join_player g k p).2.1 := by
  rcases hE : r.join_player g k p with ⟨res, r1, k1⟩
  rw [hE] at h
  dsimp only at h ⊢
  subst h
  unfold Room.join_player at hE
  split at hE
  · simp at hE
  · split at hE
    · rename_i hs
      refine proceed_inv g k ?_ hE
      intro _
      have hnone : r.player_in_turn = none := hInv.1.mpr (by rw [hs]; rfl)
      exact turnInv_none hnone (by show r.stage.is_betting = false; rw [hs]; rfl)
    all_goals
      (simp only [Prod.mk.injEq] at hE
       obtain ⟨he, hr1, hk⟩ := hE
       subst hr1
       exact hInv)

/-- A successful `take_action` preserves the invariant. -/
theorem take_action_inv (g : Nat → Nat) (k : Nat) (pid : Nat) (a : Action) {r : Room}
    {e : ServiceRequiredAction} (hInv : turnInv r)
    (h : (r.take_action g k pid a).1 = .ok e) :
    turnInv (r.take_action g k pid a).2.1 := by
  rcases hE : r.take_action g k pid a with ⟨res, r1, k1⟩
  rw [hE] at h
  dsimp only at h ⊢
  subst h
  unfold Room.take_action at hE
  split at hE
  · simp at hE
  · rename_i hturn
    have hit : r.player_in_turn = some pid := not_not.mp hturn
    have hbet : r.stage.is_betting = true := by
      cases hb : r.stage.is_betting
      · have hx := hInv.1.mpr hb
        rw [hit] at hx
        exact absurd hx (by simp)
      · rfl
    dsimp only at hE
    split at hE
    · simp at hE
    · rename_i player hfind
      cases a <;> dsimp only at hE <;>
      all_goals (
        repeat' split at hE
        all_goals (
          try dsimp only at hE
          first
            | exact proceed_inv g k
                (fun hs => absurd hbet
                  (by rw [show r.stage = Stage.notEnoughPlayers from hs]; decide)) hE
            | simp at hE))

/-- `leave_player` preserves the invariant: it either resets the table or
leaves the turn pointing at a seat now marked disconnected. -/
theorem leave_inv (pid : Nat) {r : Room} (hInv : turnInv r) :
    turnInv (r.leave_player pid).2 := by
  unfold Room.leave_player
  dsimp only
  split
  · exact turnInv_none rfl rfl
  · constructor
    · exact hInv.1
    · have h2 := hInv.2
      cases hit : r.player_in_turn with
      | none => exact trivial
      | some tpid =>
        rw [hit] at h2
        obtain ⟨p, hp, hpid, hcl⟩ := h2
        refine ⟨leaveMark pid p, List.mem_map_of_mem _ hp, ?_, ?_⟩
        · rw [leaveMark_id]
          exact hpid
        · unfold leaveMark
          by_cases hq : (p.id == pid) = true
          · rw [if_pos hq]
            exact Or.inr rfl
          · rw [if_neg hq]
            exact hcl

/-- C2, amended: in every room state reachable from `Room::new` through
the public operations (successful `join_player`, `take_action` and
`proceed`, and any `leave_player`), `player_in_turn` is `none` exactly
when the stage is NotEnoughPlayers or Showdown; in the betting stages it
names a seated player who is either non-folded with chips or — after
`leave_player` removed the player whose turn it was — marked
disconnected.  The original claim's unconditional "non-folded,
chip-bearing" guarantee is refuted by `C2_cex_leave_folded_in_turn`. -/
theorem C2_turn_invariant (r : Room) (h : Reachable r) : turnInv r := by
  induction h with
  | new i => exact turnInv_new i
  | join r g k p e hr hok ih => exact join_inv g k p ih hok
  | act r g k pid a e hr hok ih => exact take_action_inv g k pid a ih hok
  | advance r g k e hr hok ih => exact proceed_pub_inv g k ih hok
  | leave r pid hr ih => exact leave_inv pid ih

theorem C2_turn_invariant_witness : turnInv c2Join2.2.1 :=
  C2_turn_invariant _
    (Reachable.join c2Join1.2.1 oracle0 c2Join1.2.2 c2p2 .playerReceiveCards
      (Reachable.join (Room.new 2) oracle0 0 c2p1 .noAction (Reachable.new 2) (by decide))
      (by decide))

end Poker
